import Mathlib

/-!
Shallow embedding of the algorithmic core of `generators/common.py` from the
infrahub-demo repository: the interface-range expander
(`expand_interface_range` together with the module-level regex
`RANGE_PATTERN`), the rack-slot allocator (`assign_devices_to_racks` with its
helpers `get_device_number` and the per-role placement loops), and the
device-naming loop of `create_devices`.  Strings are modelled as their
character lists; Python's arbitrary-precision integers as `Int`/`Nat`;
Python exceptions as `Option`/`Except` error results.  Character classes
(`\w`, `str.isdigit`) are modelled over ASCII, which covers every string the
repository produces.
-/

set_option maxHeartbeats 1600000

/-- ASCII digit test, modelling Python's `str.isdigit` on the ASCII range
(characters `'0'`..`'9'`, code points 48..57). -/
def isDigitC (c : Char) : Bool :=
  48 ≤ c.toNat && c.toNat ≤ 57

/-- Character class `\w` of the source regex, over ASCII: letters, digits and
the underscore. -/
def isWordChar (c : Char) : Bool :=
  c.isAlpha || isDigitC c || c == '_'

/-- Characters allowed inside the bracket by `RANGE_PATTERN`'s class
`[\w,-]`. -/
def isContentChar (c : Char) : Bool :=
  isWordChar c || c == ',' || c == '-'

/-- The mandatory separator `[-,]` in the middle of `RANGE_PATTERN`: the
bracket content must contain at least one hyphen or comma for the regex to
match at all. -/
def isSepChar (c : Char) : Bool :=
  c == '-' || c == ','

/-- Model of `re.search` with `RANGE_PATTERN = (\[[\w,-]*[-,][\w,-]*\])`: find the
leftmost `[` that starts a maximal run of `[\w,-]` characters immediately
closed by `]` and containing at least one `-` or `,`.  Returns
(text before the match, bracket content without the brackets, text after). -/
def findBracket : List Char → Option (List Char × List Char × List Char)
  | [] => none
  | c :: rest =>
    let fallback := (findBracket rest).map (fun r => (c :: r.1, r.2.1, r.2.2))
    if c = '[' then
      let content := rest.takeWhile isContentChar
      match rest.drop content.length with
      | ']' :: tail =>
        if content.any isSepChar then some ([], content, tail) else fallback
      | _ => fallback
    else fallback

/-- Python's `str.split(sep)` for a single separator character: splits on
every occurrence, keeping empty pieces, and maps the empty string to one
empty piece. -/
def splitOnChar (sep : Char) : List Char → List (List Char)
  | [] => [[]]
  | c :: rest =>
    let r := splitOnChar sep rest
    if c = sep then
      [] :: r
    else
      match r with
      | [] => [[c]]
      | h :: t => (c :: h) :: t

/-- Python's `str.isdigit` on a whole string (ASCII model): non-empty and all
digits. -/
def isDigits (s : List Char) : Bool :=
  !s.isEmpty && s.all isDigitC

/-- Numeric value of a digit string, as computed by Python's `int` on a
string of digits (leading zeros allowed). -/
def digitsVal (s : List Char) : Nat :=
  s.foldl (fun a c => 10 * a + (c.toNat - 48)) 0

/-- Decimal digit to character. -/
def digChar : Nat → Char
  | 0 => '0' | 1 => '1' | 2 => '2' | 3 => '3' | 4 => '4'
  | 5 => '5' | 6 => '6' | 7 => '7' | 8 => '8' | 9 => '9'
  | _ => '*'

/-- Little-endian decimal digits of `n`, with explicit fuel so that the
recursion is structural (the fuel is always instantiated with `n` itself). -/
def digitsRevAux : Nat → Nat → List Nat
  | 0, _ => []
  | fuel + 1, n => if n = 0 then [] else n % 10 :: digitsRevAux fuel (n / 10)

/-- Python's `str` on a non-negative integer: its decimal digit string. -/
def natStr (n : Nat) : List Char :=
  if n = 0 then ['0'] else ((digitsRevAux n n).reverse).map digChar

/-- The list `[a, a+1, ..., b]` produced by Python's `range(a, b + 1)`
(empty when `b < a`). -/
def rangeNats (a b : Nat) : List Nat :=
  (List.range (b + 1 - a)).map (fun i => a + i)

/-- Outcome of the comma-part loop of `expand_interface_range`: a raised
exception (`.raise`, from the tuple unpacking `start, end = part.split('-')`
meeting a part with more than one hyphen), the explicit fall-back
`return [interface_name]` (`.fallback`), or the accumulated expansions. -/
inductive ExpandRes where
  | raise : ExpandRes
  | fallback : ExpandRes
  | ok (names : List (List Char)) : ExpandRes

/-- The `for part in bracket_content.split(',')` loop of
`expand_interface_range`: hyphenated all-digit parts expand to the inclusive
integer range (formatted back through `str`), all-digit parts are kept
verbatim, any other part aborts with the fall-back, and a part containing
more than one hyphen makes the two-element tuple unpacking raise. -/
def expandLoop (pfx sfx : List Char) : List (List Char) → ExpandRes
  | [] => .ok []
  | part :: rest =>
    if part.any (fun c => c == '-') then
      match splitOnChar '-' part with
      | [s, e] =>
        if isDigits s && isDigits e then
          let items := (rangeNats (digitsVal s) (digitsVal e)).map
            (fun i => pfx ++ natStr i ++ sfx)
          match expandLoop pfx sfx rest with
          | .ok l => .ok (items ++ l)
          | r => r
        else .fallback
      | _ => .raise
    else if isDigits part then
      match expandLoop pfx sfx rest with
      | .ok l => .ok ((pfx ++ part ++ sfx) :: l)
      | r => r
    else .fallback

/-- Core of `expand_interface_range` on character lists.  `none` models a Python
exception escaping the function; `some names` a normal return. -/
def expandCore (s : List Char) : Option (List (List Char)) :=
  match findBracket s with
  | none => some [s]
  | some (pfx, content, sfx) =>
    match expandLoop pfx sfx (splitOnChar ',' content) with
    | .raise => none
    | .fallback => some [s]
    | .ok l => some (if l = [] then [s] else l)

/-- Function `expand_interface_range` from `generators/common.py`, on `String`.
`none` models a Python exception escaping the function. -/
def expand_interface_range (s : String) : Option (List String) :=
  (expandCore s.data).map (fun l => l.map String.mk)

/-- A materialized device as the allocator sees it: `name` and `role` are the
node attribute values; `height` is the result of `get_device_height` (the
`device_type` lookup with its default of 1U is resolved before allocation,
so the allocator input carries the resolved height). -/
structure Device where
  name : String
  role : String
  height : Nat
deriving DecidableEq, Repr

/-- One `(device, position, height)` triple of a rack's occupancy list. -/
structure Entry where
  device : Device
  pos : Int
  height : Nat
deriving DecidableEq, Repr

/-- The `log.warning` calls of `assign_devices_to_racks`, as recordable
events. -/
inductive Warning where
  | noLeafDevices : Warning
  | leafSkip (name : String) : Warning
  | notEnoughMiddle (name : String) : Warning
deriving DecidableEq, Repr

/-- Exceptions that can escape `assign_devices_to_racks`: the `int` parse
failure of `get_device_number` (Python `ValueError`) and a missing key in the
`rack_occupancy` dict (Python `KeyError`). -/
inductive AllocError where
  | parseError : AllocError
  | keyError : AllocError
deriving DecidableEq, Repr

/-- Result of a completed allocation pass: the `rack_occupancy` dict (keys in
insertion order `1..total_racks`) and the recorded warnings. -/
structure Alloc where
  occ : List (Int × List Entry)
  warnings : List Warning
deriving DecidableEq, Repr

/-- Lowercasing of a character list, modelling `str.lower` (ASCII model). -/
def lowerL (l : List Char) : List Char :=
  l.map Char.toLower

/-- Tests whether `needle` starts `hay`. -/
def listStartsWith : List Char → List Char → Bool
  | [], _ => true
  | _ :: _, [] => false
  | a :: as, b :: bs => a == b && listStartsWith as bs

/-- Python's `needle in hay` substring test. -/
def containsSub (needle : List Char) : List Char → Bool
  | [] => needle.isEmpty
  | c :: rest => listStartsWith needle (c :: rest) || containsSub needle rest

/-- Computes `device.name.value.split("-")[-1]`: the last hyphen-separated token of a
device name. -/
def lastTokenOf (s : String) : List Char :=
  (splitOnChar '-' s.data).getLastD []

/-- Python's `int` on a string (ASCII model: optional sign followed by a
non-empty digit string; surrounding whitespace and underscore digit grouping
are not modelled, no repository name contains them).  `none` models the
`ValueError`. -/
def pyParseInt (s : List Char) : Option Int :=
  match s with
  | '+' :: rest => if isDigits rest then some ((digitsVal rest : Nat) : Int) else none
  | '-' :: rest => if isDigits rest then some (-((digitsVal rest : Nat) : Int)) else none
  | _ => if isDigits s then some ((digitsVal s : Nat) : Int) else none

/-- Filter `[d for d in self.devices if d.role.value == "leaf"]`. -/
def leavesOf (ds : List Device) : List Device :=
  ds.filter (fun d => d.role == "leaf")

/-- Filter `[d for d in self.devices if d.role.value == "border_leaf"]`. -/
def bordersOf (ds : List Device) : List Device :=
  ds.filter (fun d => d.role == "border_leaf")

/-- Filter `[d for d in self.devices if d.role.value == "spine"]`. -/
def spinesOf (ds : List Device) : List Device :=
  ds.filter (fun d => d.role == "spine")

/-- Filter `[d for d in self.devices if "console" in d.role.value.lower()]`. -/
def consolesOf (ds : List Device) : List Device :=
  ds.filter (fun d => containsSub "console".data (lowerL d.role.data))

/-- Filter `[d for d in self.devices if "oob" in d.role.value.lower()]`. -/
def oobsOf (ds : List Device) : List Device :=
  ds.filter (fun d => containsSub "oob".data (lowerL d.role.data))

/-- Computes `total_racks = len(leaf_devices)`. -/
def totalRacksOf (ds : List Device) : Nat :=
  (leavesOf ds).length

/-- Computes `middle_device_count = max(len(spine_devices), len(border_leaf_devices)
+ len(console_devices) + len(oob_devices))`. -/
def middleCountOf (ds : List Device) : Nat :=
  max (spinesOf ds).length
    ((bordersOf ds).length + (consolesOf ds).length + (oobsOf ds).length)

/-- Computes `middle_start = (total_racks // 2) - (middle_device_count // 2)` (both
operands are non-negative, so Python's floor division is `Nat` division; the
difference can be negative and is not clamped). -/
def middleStart (total c : Nat) : Int :=
  ((total / 2 : Nat) : Int) - ((c / 2 : Nat) : Int)

/-- Computes `middle_racks = list(range(middle_start + 1, middle_start +
middle_device_count + 1))`. -/
def middleRacks (s : Int) (c : Nat) : List Int :=
  (List.range c).map (fun i : Nat => s + 1 + (i : Int))

/-- The `middle_racks` list the allocator computes for a device list. -/
def midRacksOf (ds : List Device) : List Int :=
  middleRacks (middleStart (totalRacksOf ds) (middleCountOf ds)) (middleCountOf ds)

/-- The `rack_occupancy` dict, as an association list in key insertion
order. -/
abbrev RackMap := List (Int × List Entry)

/-- Builds `rack_occupancy` as the dict with keys `1..total_racks` and empty lists. -/
def initOcc (n : Nat) : RackMap :=
  (List.range n).map (fun i : Nat => (((i : Int) + 1), []))

/-- Dict lookup `rack_occupancy[k]`; `none` models the `KeyError`. -/
def occGet : RackMap → Int → Option (List Entry)
  | [], _ => none
  | p :: rest, k => if p.1 = k then some p.2 else occGet rest k

/-- Performs `rack_occupancy[k].append(e)` (the allocator only appends after a
successful lookup, so an absent key leaves the map unchanged here). -/
def occAppend (occ : RackMap) (k : Int) (e : Entry) : RackMap :=
  occ.map (fun p => if p.1 = k then (p.1, p.2 ++ [e]) else p)

/-- Computes `min(pos for _, pos, _ in rack_occupancy[rack_num])`, `none` on an empty
list (the source guards with `if rack_occupancy[rack_num]:`). -/
def lowestPos : List Entry → Option Int
  | [] => none
  | e :: es => some (es.foldl (fun m x => min m x.pos) e.pos)

/-- Position chosen for a non-leaf device entering a rack with occupancy `l`:
`lowest - height` when occupied, `42 - (height - 1)` (top of rack) when
empty. -/
def newPos (l : List Entry) (h : Nat) : Int :=
  match lowestPos l with
  | none => 42 - ((h : Int) - 1)
  | some m => m - (h : Int)

/-- The occupancy entry a middle-rack placement appends. -/
def mkEntry (d : Device) (l : List Entry) : Entry :=
  ⟨d, newPos l d.height, d.height⟩

/-- The occupancy entry the leaf loop appends: top-of-rack position
`42 - (height - 1)`. -/
def leafEntry (d : Device) : Entry :=
  ⟨d, 42 - ((d.height : Int) - 1), d.height⟩

/-- The `for device in leaf_devices` loop: parse the trailing ordinal
(raising on failure), skip with a warning when it exceeds `total_racks`,
otherwise append at top of the rack named by the ordinal (a missing dict key
raises `KeyError`). -/
def placeLeaves (total : Nat) : List Device → RackMap → List Warning →
    Except AllocError (RackMap × List Warning)
  | [], occ, ws => .ok (occ, ws)
  | d :: rest, occ, ws =>
    match pyParseInt (lastTokenOf d.name) with
    | none => .error .parseError
    | some n =>
      if (total : Int) < n then
        placeLeaves total rest occ (ws ++ [.leafSkip d.name])
      else
        match occGet occ n with
        | none => .error .keyError
        | some _ =>
          placeLeaves total rest (occAppend occ n (leafEntry d)) ws

/-- One of the four identical middle-rack loops (border leaves, spines,
consoles, OOB): consume `middle_racks` from its start, one rack per device;
when the racks run out, warn once (naming the first dropped device) and
break; a rack index missing from the dict raises `KeyError`. -/
def placeMiddle : List Device → List Int → RackMap → List Warning →
    Except AllocError (RackMap × List Warning)
  | [], _, occ, ws => .ok (occ, ws)
  | d :: _, [], occ, ws => .ok (occ, ws ++ [.notEnoughMiddle d.name])
  | d :: rest, r :: rs, occ, ws =>
    match occGet occ r with
    | none => .error .keyError
    | some l => placeMiddle rest rs (occAppend occ r (mkEntry d l)) ws

/-- Function `assign_devices_to_racks` from `generators/common.py`: group the devices
by role, short-circuit with a warning when there are no leaves, then run the
leaf loop followed by the border-leaf, spine, console and OOB middle-rack
loops (each restarting from the head of `middle_racks`). -/
def assign_devices_to_racks (ds : List Device) : Except AllocError Alloc :=
  let total := totalRacksOf ds
  if total = 0 then .ok ⟨[], [.noLeafDevices]⟩
  else
    let mid := midRacksOf ds
    (placeLeaves total (leavesOf ds) (initOcc total) []).bind (fun r1 =>
      (placeMiddle (bordersOf ds) mid r1.1 r1.2).bind (fun r2 =>
        (placeMiddle (spinesOf ds) mid r2.1 r2.2).bind (fun r3 =>
          (placeMiddle (consolesOf ds) mid r3.1 r3.2).bind (fun r4 =>
            (placeMiddle (oobsOf ds) mid r4.1 r4.2).bind (fun r5 =>
              .ok ⟨r5.1, r5.2⟩)))))

/-- One design element as consumed by the naming loop of `create_devices`:
its `role`, its `quantity` and its template's `template_name`. -/
structure Element where
  role : String
  quantity : Nat
  template_name : String
deriving DecidableEq, Repr

/-- Computes `str(n).zfill(2)`: the decimal digit string padded with `'0'` to a
minimum width of two characters. -/
def zfill2 (n : Nat) : List Char :=
  let s := natStr n
  if s.length < 2 then '0' :: s else s

/-- Formats the device name, Python `topology_name.lower()` + "-" + role + "-" + zero-padded counter. -/
def mkDeviceName (topo : String) (role : String) (c : Nat) : String :=
  String.mk (lowerL topo.data ++ '-' :: (role.data ++ '-' :: zfill2 c))

/-- Performs `role_counters.setdefault(role, 0)` followed by a read. -/
def lookupCounter : List (String × Nat) → String → Nat
  | [], _ => 0
  | p :: rest, r => if p.1 = r then p.2 else lookupCounter rest r

/-- Store the new value of a role's counter. -/
def setCounter : List (String × Nat) → String → Nat → List (String × Nat)
  | [], r, v => [(r, v)]
  | (r', v') :: rest, r, v =>
    if r' = r then (r, v) :: rest else (r', v') :: setCounter rest r v

/-- The naming loop of `create_devices` over the design elements, carrying
the `role_counters` dict: element `el` with current counter `c0` generates
names for counters `c0 + 1 .. c0 + el.quantity` (the inner
`for i in range(1, quantity + 1)` with its increment-then-format body) and
maps each name to the element's template name. -/
def createDevicesAux (topo : String) : List Element → List (String × Nat) →
    List (String × String)
  | [], _ => []
  | el :: rest, counters =>
    let c0 := lookupCounter counters el.role
    ((List.range el.quantity).map
        (fun i => (mkDeviceName topo el.role (c0 + i + 1), el.template_name)))
      ++ createDevicesAux topo rest (setCounter counters el.role (c0 + el.quantity))

/-- The `(name, template_name)` pairs generated by `create_devices` for a
topology name and its ordered design elements (counters all start absent,
i.e. at 0). -/
def create_devices (topo : String) (els : List Element) : List (String × String) :=
  createDevicesAux topo els []

/-- Total quantity of the elements before index `j` that carry role `r`:
the value the spec says the role counter has reached when element `j`
starts. -/
def countRoleBefore (els : List Element) (j : Nat) (r : String) : Nat :=
  ((els.take j).filter (fun e => e.role == r)).foldl (fun a e => a + e.quantity) 0

/-- Concatenation of a list of lists. -/
def joinAll : List (List α) → List α
  | [] => []
  | l :: ls => l ++ joinAll ls

/-- The naming outcome as the specification words it: element `j` of the
ordered design list contributes, for each unit `i < quantity`, the name
`lowercase(topo) + "-" + role + "-" + zfill2(counter)` where the counter is
the total quantity of earlier same-role elements plus `i + 1`, mapped to the
element's template name.  This is the spec-side description to be compared
with `create_devices`. -/
def create_devices_spec (topo : String) (els : List Element) : List (String × String) :=
  joinAll ((List.range els.length).map (fun j =>
    (List.range (els.getD j ⟨"", 0, ""⟩).quantity).map (fun i =>
      (mkDeviceName topo (els.getD j ⟨"", 0, ""⟩).role
        (countRoleBefore els j (els.getD j ⟨"", 0, ""⟩).role + i + 1),
        (els.getD j ⟨"", 0, ""⟩).template_name))))

/-- Two occupancy entries occupy disjoint rack-unit intervals: no unit `x`
lies in both `[pos, pos + height - 1]` spans. -/
def EntryDisjoint (e1 e2 : Entry) : Prop :=
  ∀ x : Int,
    ¬ ((e1.pos ≤ x ∧ x ≤ e1.pos + (e1.height : Int) - 1) ∧
       (e2.pos ≤ x ∧ x ≤ e2.pos + (e2.height : Int) - 1))

instance (e1 e2 : Entry) : Decidable (EntryDisjoint e1 e2) :=
  decidable_of_iff
    (e1.pos + (e1.height : Int) - 1 < e2.pos ∨
      e2.pos + (e2.height : Int) - 1 < e1.pos ∨
      e1.height = 0 ∨ e2.height = 0)
    (by
      constructor
      · intro h x hx
        rcases h with h | h | h | h <;> omega
      · intro hd
        by_contra hc
        push_neg at hc
        obtain ⟨h1, h2, h3, h4⟩ := hc
        rcases le_total e1.pos e2.pos with hle | hle
        · exact hd e2.pos ⟨⟨by omega, by omega⟩, ⟨by omega, by omega⟩⟩
        · exact hd e1.pos ⟨⟨by omega, by omega⟩, ⟨by omega, by omega⟩⟩)

/-- No two entries of any rack of the allocation overlap. -/
def NoOverlap (a : Alloc) : Prop :=
  ∀ p ∈ a.occ, List.Pairwise EntryDisjoint p.2

/-- The leaf part of the specification of `assign_devices_to_racks`, amended
to require `1 ≤ n`: a leaf with trailing ordinal `n` in `1..total_racks` is
placed in rack `n` at top position `42 - (height - 1)`; a leaf with
`n > total_racks` is absent from every rack and leaves a skip warning. -/
def LeafPlacementSpec (ds : List Device) (a : Alloc) : Prop :=
  ∀ d ∈ leavesOf ds, ∀ n : Int, pyParseInt (lastTokenOf d.name) = some n →
    (n ≤ (totalRacksOf ds : Int) →
      ∃ l, occGet a.occ n = some l ∧ leafEntry d ∈ l) ∧
    ((totalRacksOf ds : Int) < n →
      (∀ p ∈ a.occ, ∀ e ∈ p.2, e.device ≠ d) ∧
      Warning.leafSkip d.name ∈ a.warnings)

/-- The allocation completes and satisfies the (amended) leaf placement
specification. -/
def AllocLeafPlacementOK (ds : List Device) : Prop :=
  ∃ a, assign_devices_to_racks ds = .ok a ∧ LeafPlacementSpec ds a

/-- Example device list: three leaves with ordinals 1, 2 and 5 (the last
over capacity) and one 2U spine. -/
def exDevices : List Device :=
  [⟨"dc1-leaf-01", "leaf", 1⟩, ⟨"dc1-leaf-02", "leaf", 1⟩,
   ⟨"dc1-leaf-05", "leaf", 1⟩, ⟨"dc1-spine-01", "spine", 2⟩]

/-- The allocation the embedded allocator computes for `exDevices`. -/
def exAlloc : Alloc :=
  ⟨[(1, [⟨⟨"dc1-leaf-01", "leaf", 1⟩, 42, 1⟩]),
    (2, [⟨⟨"dc1-leaf-02", "leaf", 1⟩, 42, 1⟩,
         ⟨⟨"dc1-spine-01", "spine", 2⟩, 40, 2⟩]),
    (3, [])],
   [Warning.leafSkip "dc1-leaf-05"]⟩

/-- Value of a little-endian digit list. -/
def valRev : List Nat → Nat
  | [] => 0
  | d :: ds => d + 10 * valRev ds

/-- Numeric value of one character. -/
def charVal (c : Char) : Nat := c.toNat - 48

/-- The naming loop with the per-role counter state abstracted into a
function from roles to already-consumed quantities. -/
def namesFrom (topo : String) : (String → Nat) → List Element → List (String × String)
  | _, [] => []
  | base, el :: rest =>
    ((List.range el.quantity).map
      (fun i => (mkDeviceName topo el.role (base el.role + i + 1), el.template_name)))
    ++ namesFrom topo
        (fun r => if r = el.role then base r + el.quantity else base r) rest

theorem exceptBind_ok {α β : Type} (a : α) (f : α → Except AllocError β) :
    (Except.ok a : Except AllocError α).bind f = f a := rfl

theorem exceptBind_error {α β : Type} (e : AllocError)
    (f : α → Except AllocError β) :
    (Except.error e : Except AllocError α).bind f = .error e := rfl

theorem occGet_occAppend (occ : RackMap) (k k' : Int) (e : Entry) :
    occGet (occAppend occ k e) k' =
      if k' = k then (occGet occ k').map (fun l => l ++ [e])
      else occGet occ k' := by
  induction occ with
  | nil =>
    simp only [occAppend, List.map_nil, occGet]
    split <;> rfl
  | cons p rest ih =>
    obtain ⟨pk, pl⟩ := p
    have hstep : occAppend ((pk, pl) :: rest) k e =
        (if pk = k then (pk, pl ++ [e]) else (pk, pl)) :: occAppend rest k e := rfl
    rw [hstep]
    by_cases hp : pk = k
    · rw [if_pos hp]
      by_cases hp' : pk = k'
      · have hkk' : k' = k := by omega
        simp [occGet, hp', hkk']
      · have hkk' : ¬ k' = k := by omega
        simp [occGet, hp', hkk', ih]
    · rw [if_neg hp]
      by_cases hp' : pk = k'
      · have hkk' : ¬ k' = k := by omega
        simp [occGet, hp', hkk']
      · simp [occGet, hp', ih]

theorem occGet_append (occ1 occ2 : RackMap) (k : Int) :
    occGet (occ1 ++ occ2) k =
      match occGet occ1 k with
      | some l => some l
      | none => occGet occ2 k := by
  induction occ1 with
  | nil => simp [occGet]
  | cons p rest ih =>
    by_cases hpk : p.1 = k
    · simp [occGet, hpk]
    · simp [occGet, hpk, ih]

theorem occGet_initOcc (total : Nat) (k : Int) :
    occGet (initOcc total) k =
      if 1 ≤ k ∧ k ≤ (total : Int) then some [] else none := by
  induction total with
  | zero =>
    simp only [initOcc, List.range_zero, List.map_nil, occGet, Nat.cast_zero]
    split
    · rename_i hcond
      exfalso
      omega
    · rfl
  | succ n ih =>
    have hexp : initOcc (n + 1) = initOcc n ++ [(((n : Int) + 1), [])] := by
      simp [initOcc, List.range_succ]
    rw [hexp, occGet_append, ih]
    have hc : ((n + 1 : Nat) : Int) = (n : Int) + 1 := by push_cast; ring
    rw [hc]
    by_cases hk : (n : Int) + 1 = k
    · have h1 : ¬ (1 ≤ k ∧ k ≤ (n : Int)) := by omega
      have h2 : 1 ≤ k ∧ k ≤ (n : Int) + 1 := by omega
      rw [if_neg h1, if_pos h2]
      simp [occGet, hk]
    · by_cases h1 : 1 ≤ k ∧ k ≤ (n : Int)
      · have h2 : 1 ≤ k ∧ k ≤ (n : Int) + 1 := by omega
        rw [if_pos h1, if_pos h2]
      · have h2 : ¬ (1 ≤ k ∧ k ≤ (n : Int) + 1) := by omega
        rw [if_neg h1, if_neg h2]
        simp [occGet, hk]

theorem occGet_occAppend_none (occ : RackMap) (k k' : Int) (e : Entry) :
    occGet (occAppend occ k e) k' = none ↔ occGet occ k' = none := by
  rw [occGet_occAppend]
  split <;> simp

theorem foldl_min_le (es : List Entry) (a : Int) :
    es.foldl (fun m x => min m x.pos) a ≤ a ∧
      ∀ e ∈ es, es.foldl (fun m x => min m x.pos) a ≤ e.pos := by
  induction es generalizing a with
  | nil => simp
  | cons x xs ih =>
    obtain ⟨ih1, ih2⟩ := ih (min a x.pos)
    refine ⟨le_trans ih1 (min_le_left _ _), ?_⟩
    intro e he
    rcases List.mem_cons.mp he with rfl | he'
    · exact le_trans ih1 (min_le_right _ _)
    · exact ih2 e he'

theorem lowestPos_le (l : List Entry) (hl : l ≠ []) :
    ∃ m, lowestPos l = some m ∧ ∀ e ∈ l, m ≤ e.pos := by
  cases l with
  | nil => exact absurd rfl hl
  | cons e0 es =>
    refine ⟨es.foldl (fun m (x : Entry) => min m x.pos) e0.pos, rfl, ?_⟩
    intro e he
    rcases List.mem_cons.mp he with rfl | he'
    · exact (foldl_min_le es e.pos).1
    · exact (foldl_min_le es e0.pos).2 e he'

theorem entryDisjoint_mkEntry (l : List Entry) (d : Device) (e : Entry)
    (he : e ∈ l) : EntryDisjoint e (mkEntry d l) := by
  have hl : l ≠ [] := by
    intro hnil
    subst hnil
    exact absurd he (List.not_mem_nil e)
  obtain ⟨m, hm, hle⟩ := lowestPos_le l hl
  have hme := hle e he
  intro x hx
  simp only [mkEntry, newPos, hm] at hx
  omega

theorem pairwise_append_mkEntry (l : List Entry) (d : Device)
    (h : List.Pairwise EntryDisjoint l) :
    List.Pairwise EntryDisjoint (l ++ [mkEntry d l]) := by
  rw [List.pairwise_append]
  refine ⟨h, List.pairwise_singleton _ _, ?_⟩
  intro e he e' he'
  have he'' : e' = mkEntry d l := by simpa using he'
  subst he''
  exact entryDisjoint_mkEntry l d e he

theorem placeMiddle_ok_cases (g : List Device) :
    ∀ (mid : List Int) (occ : RackMap) (ws : List Warning) (res : RackMap × List Warning),
      placeMiddle g mid occ ws = .ok res →
      (∀ k l, occGet occ k = some l → List.Pairwise EntryDisjoint l) →
      ∀ k l, occGet res.1 k = some l → List.Pairwise EntryDisjoint l := by
  induction g with
  | nil =>
    intro mid occ ws res hok h
    simp only [placeMiddle] at hok
    cases hok
    exact h
  | cons d rest ih =>
    intro mid occ ws res hok h
    cases mid with
    | nil =>
      simp only [placeMiddle] at hok
      cases hok
      exact h
    | cons r rs =>
      cases hg : occGet occ r with
      | none =>
        simp only [placeMiddle, hg] at hok
        cases hok
      | some l0 =>
        simp only [placeMiddle, hg] at hok
        refine ih rs _ ws res hok ?_
        intro k l hkl
        rw [occGet_occAppend] at hkl
        by_cases hk : k = r
        · rw [if_pos hk, hk, hg] at hkl
          simp only [Option.map_some'] at hkl
          cases hkl
          exact pairwise_append_mkEntry l0 d (h r l0 hg)
        · rw [if_neg hk] at hkl
          exact h k l hkl

theorem placeMiddle_error_kind (g : List Device) :
    ∀ (mid : List Int) (occ : RackMap) (ws : List Warning) (e : AllocError),
      placeMiddle g mid occ ws = .error e → e = .keyError := by
  induction g with
  | nil =>
    intro mid occ ws e hok
    simp only [placeMiddle] at hok
    cases hok
  | cons d rest ih =>
    intro mid occ ws e hok
    cases mid with
    | nil =>
      simp only [placeMiddle] at hok
      cases hok
    | cons r rs =>
      cases hg : occGet occ r with
      | none =>
        simp only [placeMiddle, hg] at hok
        cases hok
        rfl
      | some l0 =>
        simp only [placeMiddle, hg] at hok
        exact ih rs _ ws e hok

theorem placeMiddle_none_pres (g : List Device) :
    ∀ (mid : List Int) (occ : RackMap) (ws : List Warning) (res : RackMap × List Warning),
      placeMiddle g mid occ ws = .ok res →
      ∀ k, (occGet res.1 k = none ↔ occGet occ k = none) := by
  induction g with
  | nil =>
    intro mid occ ws res hok k
    simp only [placeMiddle] at hok
    cases hok
    rfl
  | cons d rest ih =>
    intro mid occ ws res hok k
    cases mid with
    | nil =>
      simp only [placeMiddle] at hok
      cases hok
      rfl
    | cons r rs =>
      cases hg : occGet occ r with
      | none =>
        simp only [placeMiddle, hg] at hok
        cases hok
      | some l0 =>
        simp only [placeMiddle, hg] at hok
        rw [ih rs _ ws res hok k]
        exact occGet_occAppend_none occ r k (mkEntry d l0)

theorem placeMiddle_mem_mono (g : List Device) :
    ∀ (mid : List Int) (occ : RackMap) (ws : List Warning) (res : RackMap × List Warning),
      placeMiddle g mid occ ws = .ok res →
      ∀ k l, occGet occ k = some l →
        ∃ l', occGet res.1 k = some l' ∧ ∀ e ∈ l, e ∈ l' := by
  induction g with
  | nil =>
    intro mid occ ws res hok k l hl
    simp only [placeMiddle] at hok
    cases hok
    exact ⟨l, hl, fun e he => he⟩
  | cons d rest ih =>
    intro mid occ ws res hok k l hl
    cases mid with
    | nil =>
      simp only [placeMiddle] at hok
      cases hok
      exact ⟨l, hl, fun e he => he⟩
    | cons r rs =>
      cases hg : occGet occ r with
      | none =>
        simp only [placeMiddle, hg] at hok
        cases hok
      | some l0 =>
        simp only [placeMiddle, hg] at hok
        by_cases hk : k = r
        · have hnext : occGet (occAppend occ r (mkEntry d l0)) k =
              some (l0 ++ [mkEntry d l0]) := by
            rw [occGet_occAppend, if_pos hk, hk, hg]
            rfl
          obtain ⟨l', hl', hmem⟩ := ih rs _ ws res hok k _ hnext
          subst hk
          rw [hg] at hl
          cases hl
          exact ⟨l', hl', fun e he => hmem e (List.mem_append_left _ he)⟩
        · have hnext : occGet (occAppend occ r (mkEntry d l0)) k = some l := by
            rw [occGet_occAppend, if_neg hk]
            exact hl
          exact ih rs _ ws res hok k l hnext

theorem placeMiddle_sources (g : List Device) :
    ∀ (mid : List Int) (occ : RackMap) (ws : List Warning) (res : RackMap × List Warning),
      placeMiddle g mid occ ws = .ok res →
      ∀ k l', occGet res.1 k = some l' → ∀ e ∈ l',
        (∃ l, occGet occ k = some l ∧ e ∈ l) ∨ e.device ∈ g := by
  induction g with
  | nil =>
    intro mid occ ws res hok k l' hl' e he
    simp only [placeMiddle] at hok
    cases hok
    exact Or.inl ⟨l', hl', he⟩
  | cons d rest ih =>
    intro mid occ ws res hok k l' hl' e he
    cases mid with
    | nil =>
      simp only [placeMiddle] at hok
      cases hok
      exact Or.inl ⟨l', hl', he⟩
    | cons r rs =>
      cases hg : occGet occ r with
      | none =>
        simp only [placeMiddle, hg] at hok
        cases hok
      | some l0 =>
        simp only [placeMiddle, hg] at hok
        rcases ih rs _ ws res hok k l' hl' e he with ⟨l1, hl1, hel1⟩ | hdev
        · rw [occGet_occAppend] at hl1
          by_cases hk : k = r
          · rw [if_pos hk, hk, hg] at hl1
            simp only [Option.map_some'] at hl1
            cases hl1
            rcases List.mem_append.mp hel1 with h1 | h2
            · exact Or.inl ⟨l0, hk ▸ hg, h1⟩
            · have : e = mkEntry d l0 := by simpa using h2
              subst this
              exact Or.inr (List.mem_cons_self d rest)
          · rw [if_neg hk] at hl1
            exact Or.inl ⟨l1, hl1, hel1⟩
        · exact Or.inr (List.mem_cons_of_mem d hdev)

theorem placeMiddle_ws_mono (g : List Device) :
    ∀ (mid : List Int) (occ : RackMap) (ws : List Warning) (res : RackMap × List Warning),
      placeMiddle g mid occ ws = .ok res →
      ∃ ext, res.2 = ws ++ ext := by
  induction g with
  | nil =>
    intro mid occ ws res hok
    simp only [placeMiddle] at hok
    cases hok
    exact ⟨[], by simp⟩
  | cons d rest ih =>
    intro mid occ ws res hok
    cases mid with
    | nil =>
      simp only [placeMiddle] at hok
      cases hok
      exact ⟨[.notEnoughMiddle d.name], rfl⟩
    | cons r rs =>
      cases hg : occGet occ r with
      | none =>
        simp only [placeMiddle, hg] at hok
        cases hok
      | some l0 =>
        simp only [placeMiddle, hg] at hok
        exact ih rs _ ws res hok

theorem placeMiddle_bad_idx (g : List Device) :
    ∀ (mid : List Int) (occ : RackMap) (ws : List Warning),
      (∃ j, j < g.length ∧ j < mid.length ∧ occGet occ (mid.getD j 0) = none) →
      placeMiddle g mid occ ws = .error .keyError := by
  induction g with
  | nil =>
    intro mid occ ws ⟨j, hj, _, _⟩
    exact absurd hj (by simp)
  | cons d rest ih =>
    intro mid occ ws ⟨j, hj, hjm, hnone⟩
    cases mid with
    | nil => exact absurd hjm (by simp)
    | cons r rs =>
      cases j with
      | zero =>
        simp only [List.getD, List.get?, Option.getD] at hnone
        simp only [placeMiddle, hnone]
      | succ j' =>
        cases hg : occGet occ r with
        | none => simp only [placeMiddle, hg]
        | some l0 =>
          simp only [placeMiddle, hg]
          refine ih rs _ ws ⟨j', ?_, ?_, ?_⟩
          · simpa using hj
          · simpa using hjm
          · have hd : (r :: rs).getD (j' + 1) 0 = rs.getD j' 0 := by
              simp [List.getD]
            rw [hd] at hnone
            rw [occGet_occAppend_none]
            exact hnone

theorem placeMiddle_complete (g : List Device) :
    ∀ (mid : List Int) (occ : RackMap) (ws : List Warning),
      (∀ r ∈ mid, occGet occ r ≠ none) →
      ∃ res, placeMiddle g mid occ ws = .ok res := by
  induction g with
  | nil =>
    intro mid occ ws _
    exact ⟨(occ, ws), rfl⟩
  | cons d rest ih =>
    intro mid occ ws h
    cases mid with
    | nil => exact ⟨(occ, ws ++ [Warning.notEnoughMiddle d.name]), rfl⟩
    | cons r rs =>
      cases hg : occGet occ r with
      | none => exact absurd hg (h r (List.mem_cons_self r rs))
      | some l0 =>
        obtain ⟨res, hres⟩ := ih rs (occAppend occ r (mkEntry d l0)) ws
          (fun r' hr' => by
            rw [ne_eq, occGet_occAppend_none]
            exact h r' (List.mem_cons_of_mem r hr'))
        exact ⟨res, by simp only [placeMiddle, hg]; exact hres⟩

theorem placeLeaves_none_pres (total : Nat) (ds : List Device) :
    ∀ (occ : RackMap) (ws : List Warning) (res : RackMap × List Warning),
      placeLeaves total ds occ ws = .ok res →
      ∀ k, (occGet res.1 k = none ↔ occGet occ k = none) := by
  induction ds with
  | nil =>
    intro occ ws res hok k
    simp only [placeLeaves] at hok
    cases hok
    rfl
  | cons d rest ih =>
    intro occ ws res hok k
    cases hp : pyParseInt (lastTokenOf d.name) with
    | none =>
      simp only [placeLeaves, hp] at hok
      cases hok
    | some n =>
      simp only [placeLeaves, hp] at hok
      by_cases hlt : (total : Int) < n
      · rw [if_pos hlt] at hok
        exact ih occ _ res hok k
      · rw [if_neg hlt] at hok
        cases hg : occGet occ n with
        | none =>
          rw [hg] at hok
          cases hok
        | some l0 =>
          rw [hg] at hok
          rw [ih _ ws res hok k]
          exact occGet_occAppend_none occ n k (leafEntry d)

theorem placeLeaves_mem_mono (total : Nat) (ds : List Device) :
    ∀ (occ : RackMap) (ws : List Warning) (res : RackMap × List Warning),
      placeLeaves total ds occ ws = .ok res →
      ∀ k l, occGet occ k = some l →
        ∃ l', occGet res.1 k = some l' ∧ ∀ e ∈ l, e ∈ l' := by
  induction ds with
  | nil =>
    intro occ ws res hok k l hl
    simp only [placeLeaves] at hok
    cases hok
    exact ⟨l, hl, fun e he => he⟩
  | cons d rest ih =>
    intro occ ws res hok k l hl
    cases hp : pyParseInt (lastTokenOf d.name) with
    | none =>
      simp only [placeLeaves, hp] at hok
      cases hok
    | some n =>
      simp only [placeLeaves, hp] at hok
      by_cases hlt : (total : Int) < n
      · rw [if_pos hlt] at hok
        exact ih occ _ res hok k l hl
      · rw [if_neg hlt] at hok
        cases hg : occGet occ n with
        | none =>
          rw [hg] at hok
          cases hok
        | some l0 =>
          rw [hg] at hok
          by_cases hk : k = n
          · have hnext : occGet (occAppend occ n (leafEntry d)) k =
                some (l ++ [leafEntry d]) := by
              rw [occGet_occAppend, if_pos hk, hl]
              rfl
            obtain ⟨l', hl', hmem⟩ := ih _ ws res hok k _ hnext
            exact ⟨l', hl', fun e he => hmem e (List.mem_append_left _ he)⟩
          · have hnext : occGet (occAppend occ n (leafEntry d)) k = some l := by
              rw [occGet_occAppend, if_neg hk]
              exact hl
            exact ih _ ws res hok k l hnext

theorem placeLeaves_place (total : Nat) (ds : List Device) :
    ∀ (occ : RackMap) (ws : List Warning) (res : RackMap × List Warning),
      placeLeaves total ds occ ws = .ok res →
      ∀ d ∈ ds, ∀ n : Int, pyParseInt (lastTokenOf d.name) = some n →
        n ≤ (total : Int) →
        ∃ l', occGet res.1 n = some l' ∧ leafEntry d ∈ l' := by
  induction ds with
  | nil =>
    intro occ ws res hok d hd
    exact absurd hd (List.not_mem_nil d)
  | cons d0 rest ih =>
    intro occ ws res hok d hd n hn hle
    cases hp : pyParseInt (lastTokenOf d0.name) with
    | none =>
      simp only [placeLeaves, hp] at hok
      cases hok
    | some n0 =>
      simp only [placeLeaves, hp] at hok
      rcases List.mem_cons.mp hd with rfl | hdrest
      · rw [hp] at hn
        cases hn
        have hlt : ¬ (total : Int) < n := by omega
        rw [if_neg hlt] at hok
        cases hg : occGet occ n with
        | none =>
          rw [hg] at hok
          cases hok
        | some l0 =>
          rw [hg] at hok
          have hnext : occGet (occAppend occ n (leafEntry d)) n =
              some (l0 ++ [leafEntry d]) := by
            rw [occGet_occAppend, if_pos rfl, hg]
            rfl
          obtain ⟨l', hl', hmem⟩ := placeLeaves_mem_mono total rest _ ws res hok n _ hnext
          exact ⟨l', hl', hmem _ (List.mem_append_right _ (List.mem_singleton_self _))⟩
      · by_cases hlt : (total : Int) < n0
        · rw [if_pos hlt] at hok
          exact ih occ _ res hok d hdrest n hn hle
        · rw [if_neg hlt] at hok
          cases hg : occGet occ n0 with
          | none =>
            rw [hg] at hok
            cases hok
          | some l0 =>
            rw [hg] at hok
            exact ih _ ws res hok d hdrest n hn hle

theorem placeLeaves_ws_mono (total : Nat) (ds : List Device) :
    ∀ (occ : RackMap) (ws : List Warning) (res : RackMap × List Warning),
      placeLeaves total ds occ ws = .ok res →
      ∃ ext, res.2 = ws ++ ext := by
  induction ds with
  | nil =>
    intro occ ws res hok
    simp only [placeLeaves] at hok
    cases hok
    exact ⟨[], by simp⟩
  | cons d rest ih =>
    intro occ ws res hok
    cases hp : pyParseInt (lastTokenOf d.name) with
    | none =>
      simp only [placeLeaves, hp] at hok
      cases hok
    | some n =>
      simp only [placeLeaves, hp] at hok
      by_cases hlt : (total : Int) < n
      · rw [if_pos hlt] at hok
        obtain ⟨ext, hext⟩ := ih occ _ res hok
        exact ⟨Warning.leafSkip d.name :: ext, by simp [hext]⟩
      · rw [if_neg hlt] at hok
        cases hg : occGet occ n with
        | none =>
          rw [hg] at hok
          cases hok
        | some l0 =>
          rw [hg] at hok
          exact ih _ ws res hok

theorem placeLeaves_skip_warn (total : Nat) (ds : List Device) :
    ∀ (occ : RackMap) (ws : List Warning) (res : RackMap × List Warning),
      placeLeaves total ds occ ws = .ok res →
      ∀ d ∈ ds, ∀ n : Int, pyParseInt (lastTokenOf d.name) = some n →
        (total : Int) < n → Warning.leafSkip d.name ∈ res.2 := by
  induction ds with
  | nil =>
    intro occ ws res hok d hd
    exact absurd hd (List.not_mem_nil d)
  | cons d0 rest ih =>
    intro occ ws res hok d hd n hn hlt'
    cases hp : pyParseInt (lastTokenOf d0.name) with
    | none =>
      simp only [placeLeaves, hp] at hok
      cases hok
    | some n0 =>
      simp only [placeLeaves, hp] at hok
      rcases List.mem_cons.mp hd with rfl | hdrest
      · rw [hp] at hn
        cases hn
        rw [if_pos hlt'] at hok
        obtain ⟨ext, hext⟩ := placeLeaves_ws_mono total rest occ _ res hok
        rw [hext]
        exact List.mem_append_left _ (List.mem_append_right _ (List.mem_singleton_self _))
      · by_cases hlt : (total : Int) < n0
        · rw [if_pos hlt] at hok
          exact ih occ _ res hok d hdrest n hn hlt'
        · rw [if_neg hlt] at hok
          cases hg : occGet occ n0 with
          | none =>
            rw [hg] at hok
            cases hok
          | some l0 =>
            rw [hg] at hok
            exact ih _ ws res hok d hdrest n hn hlt'

theorem placeLeaves_sources (total : Nat) (ds : List Device) :
    ∀ (occ : RackMap) (ws : List Warning) (res : RackMap × List Warning),
      placeLeaves total ds occ ws = .ok res →
      ∀ k l', occGet res.1 k = some l' → ∀ e ∈ l',
        (∃ l, occGet occ k = some l ∧ e ∈ l) ∨
        (∃ d ∈ ds, ∃ n : Int, pyParseInt (lastTokenOf d.name) = some n ∧
          n ≤ (total : Int) ∧ e = leafEntry d) := by
  induction ds with
  | nil =>
    intro occ ws res hok k l' hl' e he
    simp only [placeLeaves] at hok
    cases hok
    exact Or.inl ⟨l', hl', he⟩
  | cons d0 rest ih =>
    intro occ ws res hok k l' hl' e he
    cases hp : pyParseInt (lastTokenOf d0.name) with
    | none =>
      simp only [placeLeaves, hp] at hok
      cases hok
    | some n0 =>
      simp only [placeLeaves, hp] at hok
      by_cases hlt : (total : Int) < n0
      · rw [if_pos hlt] at hok
        rcases ih occ _ res hok k l' hl' e he with h1 | ⟨d, hd, n, hn, hnle, hde⟩
        · exact Or.inl h1
        · exact Or.inr ⟨d, List.mem_cons_of_mem d0 hd, n, hn, hnle, hde⟩
      · rw [if_neg hlt] at hok
        cases hg : occGet occ n0 with
        | none =>
          rw [hg] at hok
          cases hok
        | some l0 =>
          rw [hg] at hok
          rcases ih _ ws res hok k l' hl' e he with ⟨l1, hl1, hel1⟩ | ⟨d, hd, n, hn, hnle, hde⟩
          · rw [occGet_occAppend] at hl1
            by_cases hk : k = n0
            · rw [if_pos hk, hk, hg] at hl1
              simp only [Option.map_some'] at hl1
              cases hl1
              rcases List.mem_append.mp hel1 with h1 | h2
              · exact Or.inl ⟨l0, hk ▸ hg, h1⟩
              · have heq : e = leafEntry d0 := by simpa using h2
                exact Or.inr ⟨d0, List.mem_cons_self d0 rest, n0, hp, by omega, heq⟩
            · rw [if_neg hk] at hl1
              exact Or.inl ⟨l1, hl1, hel1⟩
          · exact Or.inr ⟨d, List.mem_cons_of_mem d0 hd, n, hn, hnle, hde⟩

theorem placeLeaves_complete (total : Nat) (ds : List Device) :
    ∀ (occ : RackMap) (ws : List Warning),
      (∀ k : Int, 1 ≤ k → k ≤ (total : Int) → occGet occ k ≠ none) →
      (∀ d ∈ ds, pyParseInt (lastTokenOf d.name) ≠ none ∧
        1 ≤ (pyParseInt (lastTokenOf d.name)).getD 1) →
      ∃ res, placeLeaves total ds occ ws = .ok res := by
  induction ds with
  | nil =>
    intro occ ws _ _
    exact ⟨(occ, ws), rfl⟩
  | cons d rest ih =>
    intro occ ws hkeys hparse
    obtain ⟨hne, hge⟩ := hparse d (List.mem_cons_self d rest)
    cases hp : pyParseInt (lastTokenOf d.name) with
    | none => exact absurd hp hne
    | some n =>
      rw [hp] at hge
      simp only [Option.getD] at hge
      by_cases hlt : (total : Int) < n
      · obtain ⟨res, hres⟩ := ih occ (ws ++ [Warning.leafSkip d.name]) hkeys
          (fun d' hd' => hparse d' (List.mem_cons_of_mem d hd'))
        refine ⟨res, ?_⟩
        simp only [placeLeaves, hp]
        rw [if_pos hlt]
        exact hres
      · cases hg : occGet occ n with
        | none => exact absurd hg (hkeys n hge (by omega))
        | some l0 =>
          obtain ⟨res, hres⟩ := ih (occAppend occ n (leafEntry d)) ws
            (fun k h1 h2 => by
              rw [ne_eq, occGet_occAppend_none]
              exact hkeys k h1 h2)
            (fun d' hd' => hparse d' (List.mem_cons_of_mem d hd'))
          refine ⟨res, ?_⟩
          simp only [placeLeaves, hp]
          rw [if_neg hlt, hg]
          exact hres

theorem placeLeaves_parse_error (total : Nat) (ds : List Device) :
    ∀ (occ : RackMap) (ws : List Warning),
      (∀ k : Int, 1 ≤ k → k ≤ (total : Int) → occGet occ k ≠ none) →
      (∃ d ∈ ds, pyParseInt (lastTokenOf d.name) = none) →
      (∀ d ∈ ds, 1 ≤ (pyParseInt (lastTokenOf d.name)).getD 1) →
      placeLeaves total ds occ ws = .error .parseError := by
  induction ds with
  | nil =>
    intro occ ws _ hbad _
    obtain ⟨d, hd, _⟩ := hbad
    exact absurd hd (List.not_mem_nil d)
  | cons d0 rest ih =>
    intro occ ws hkeys hbad hgood
    cases hp : pyParseInt (lastTokenOf d0.name) with
    | none => simp only [placeLeaves, hp]
    | some n =>
      have hge := hgood d0 (List.mem_cons_self d0 rest)
      rw [hp] at hge
      simp only [Option.getD] at hge
      obtain ⟨b, hb, hbn⟩ := hbad
      have hbrest : b ∈ rest := by
        rcases List.mem_cons.mp hb with rfl | h
        · rw [hp] at hbn
          cases hbn
        · exact h
      simp only [placeLeaves, hp]
      by_cases hlt : (total : Int) < n
      · rw [if_pos hlt]
        exact ih occ _ hkeys ⟨b, hbrest, hbn⟩
          (fun d' hd' => hgood d' (List.mem_cons_of_mem d0 hd'))
      · rw [if_neg hlt]
        cases hg : occGet occ n with
        | none => exact absurd hg (hkeys n hge (by omega))
        | some l0 =>
          exact ih _ ws
            (fun k h1 h2 => by
              rw [ne_eq, occGet_occAppend_none]
              exact hkeys k h1 h2)
            ⟨b, hbrest, hbn⟩
            (fun d' hd' => hgood d' (List.mem_cons_of_mem d0 hd'))

theorem placeLeaves_len_le_one (total : Nat) (ds : List Device) :
    ∀ (occ : RackMap) (ws : List Warning) (res : RackMap × List Warning),
      placeLeaves total ds occ ws = .ok res →
      List.Pairwise (fun d1 d2 =>
        pyParseInt (lastTokenOf d1.name) ≠ pyParseInt (lastTokenOf d2.name)) ds →
      (∀ k l, occGet occ k = some l →
        l.length ≤ 1 ∧ (l ≠ [] → ∀ d ∈ ds, pyParseInt (lastTokenOf d.name) ≠ some k)) →
      ∀ k l, occGet res.1 k = some l → l.length ≤ 1 := by
  induction ds with
  | nil =>
    intro occ ws res hok _ hinv k l hl
    simp only [placeLeaves] at hok
    cases hok
    exact (hinv k l hl).1
  | cons d0 rest ih =>
    intro occ ws res hok hdist hinv k l hl
    obtain ⟨hdisthead, hdistrest⟩ := List.pairwise_cons.mp hdist
    cases hp : pyParseInt (lastTokenOf d0.name) with
    | none =>
      simp only [placeLeaves, hp] at hok
      cases hok
    | some n =>
      simp only [placeLeaves, hp] at hok
      by_cases hlt : (total : Int) < n
      · rw [if_pos hlt] at hok
        refine ih occ _ res hok hdistrest ?_ k l hl
        intro k' l' hl'
        obtain ⟨h1, h2⟩ := hinv k' l' hl'
        exact ⟨h1, fun hne d hd => h2 hne d (List.mem_cons_of_mem d0 hd)⟩
      · rw [if_neg hlt] at hok
        cases hg : occGet occ n with
        | none =>
          rw [hg] at hok
          cases hok
        | some l0 =>
          rw [hg] at hok
          have hl0nil : l0 = [] := by
            by_contra hne
            exact (hinv n l0 hg).2 hne d0 (List.mem_cons_self d0 rest) hp
          refine ih _ ws res hok hdistrest ?_ k l hl
          intro k' l' hl'
          rw [occGet_occAppend] at hl'
          by_cases hk : k' = n
          · rw [if_pos hk, hk, hg, hl0nil] at hl'
            simp only [Option.map_some', List.nil_append] at hl'
            cases hl'
            refine ⟨by simp, fun _ d hd hpd => ?_⟩
            have := hdisthead d hd
            rw [hp, ← hk] at this
            exact this hpd.symm
          · rw [if_neg hk] at hl'
            obtain ⟨h1, h2⟩ := hinv k' l' hl'
            exact ⟨h1, fun hne d hd => h2 hne d (List.mem_cons_of_mem d0 hd)⟩

theorem keys_occAppend (occ : RackMap) (k : Int) (e : Entry) :
    (occAppend occ k e).map Prod.fst = occ.map Prod.fst := by
  induction occ with
  | nil => rfl
  | cons p rest ih =>
    have hstep : occAppend (p :: rest) k e =
        (if p.1 = k then (p.1, p.2 ++ [e]) else p) :: occAppend rest k e := rfl
    rw [hstep]
    simp only [List.map_cons, ih]
    congr 1
    by_cases hp : p.1 = k
    · rw [if_pos hp]
    · rw [if_neg hp]

theorem keys_placeLeaves (total : Nat) (ds : List Device) :
    ∀ (occ : RackMap) (ws : List Warning) (res : RackMap × List Warning),
      placeLeaves total ds occ ws = .ok res →
      res.1.map Prod.fst = occ.map Prod.fst := by
  induction ds with
  | nil =>
    intro occ ws res hok
    simp only [placeLeaves] at hok
    cases hok
    rfl
  | cons d rest ih =>
    intro occ ws res hok
    cases hp : pyParseInt (lastTokenOf d.name) with
    | none =>
      simp only [placeLeaves, hp] at hok
      cases hok
    | some n =>
      simp only [placeLeaves, hp] at hok
      by_cases hlt : (total : Int) < n
      · rw [if_pos hlt] at hok
        exact ih occ _ res hok
      · rw [if_neg hlt] at hok
        cases hg : occGet occ n with
        | none =>
          rw [hg] at hok
          cases hok
        | some l0 =>
          rw [hg] at hok
          rw [ih _ ws res hok]
          exact keys_occAppend occ n (leafEntry d)

theorem keys_placeMiddle (g : List Device) :
    ∀ (mid : List Int) (occ : RackMap) (ws : List Warning) (res : RackMap × List Warning),
      placeMiddle g mid occ ws = .ok res →
      res.1.map Prod.fst = occ.map Prod.fst := by
  induction g with
  | nil =>
    intro mid occ ws res hok
    simp only [placeMiddle] at hok
    cases hok
    rfl
  | cons d rest ih =>
    intro mid occ ws res hok
    cases mid with
    | nil =>
      simp only [placeMiddle] at hok
      cases hok
      rfl
    | cons r rs =>
      cases hg : occGet occ r with
      | none =>
        simp only [placeMiddle, hg] at hok
        cases hok
      | some l0 =>
        simp only [placeMiddle, hg] at hok
        rw [ih rs _ ws res hok]
        exact keys_occAppend occ r (mkEntry d l0)

theorem initOcc_keys (total : Nat) :
    (initOcc total).map Prod.fst = (List.range total).map (fun i : Nat => ((i : Int) + 1)) := by
  rw [initOcc, List.map_map]
  rfl

theorem initOcc_keys_nodup (total : Nat) : ((initOcc total).map Prod.fst).Nodup := by
  rw [initOcc_keys]
  have hinj : Function.Injective (fun i : Nat => ((i : Int) + 1)) := by
    intro a b hab
    simp only at hab
    omega
  exact List.Nodup.map hinj (List.nodup_range total)

theorem occGet_of_mem (occ : RackMap) (hnd : (occ.map Prod.fst).Nodup)
    (p : Int × List Entry) (hp : p ∈ occ) : occGet occ p.1 = some p.2 := by
  induction occ with
  | nil => exact absurd hp (List.not_mem_nil p)
  | cons q rest ih =>
    rw [List.map_cons] at hnd
    have hnd2 := List.nodup_cons.mp hnd
    rcases List.mem_cons.mp hp with rfl | hp'
    · simp [occGet]
    · have hqne : ¬ q.1 = p.1 := by
        intro he
        exact hnd2.1 (he ▸ List.mem_map_of_mem Prod.fst hp')
      rw [show occGet (q :: rest) p.1 = if q.1 = p.1 then some q.2 else occGet rest p.1 from rfl]
      rw [if_neg hqne]
      exact ih hnd2.2 hp'

theorem pairwise_of_len_le_one (l : List Entry) (h : l.length ≤ 1) :
    List.Pairwise EntryDisjoint l := by
  cases l with
  | nil => exact List.Pairwise.nil
  | cons e es =>
    cases es with
    | nil => exact List.pairwise_singleton _ _
    | cons e2 es2 => simp at h

theorem findBracket_no_lbrack (s : List Char) (h : '[' ∉ s) :
    findBracket s = none := by
  induction s with
  | nil => rfl
  | cons c rest ih =>
    have hc : ¬ c = '[' := fun hh => h (hh ▸ List.mem_cons_self c rest)
    have hr : '[' ∉ rest := fun hh => h (List.mem_cons_of_mem c hh)
    simp [findBracket, hc, ih hr]

theorem takeWhile_all_stop (p : Char → Bool) (l1 : List Char) (x : Char)
    (l2 : List Char) (h1 : ∀ c ∈ l1, p c = true) (hx : p x = false) :
    (l1 ++ x :: l2).takeWhile p = l1 := by
  induction l1 with
  | nil => simp [List.takeWhile, hx]
  | cons a as ih =>
    have ha := h1 a (List.mem_cons_self a as)
    simp [List.takeWhile, ha, ih (fun c hc => h1 c (List.mem_cons_of_mem a hc))]

theorem digit_not_lbrack {c : Char} (h : isDigitC c = true) : c ≠ '[' := by
  intro he
  subst he
  exact absurd h (by decide)

theorem digit_not_sep {c : Char} (h : isDigitC c = true) : isSepChar c = false := by
  have h2 : ¬ c = '-' := by
    intro he
    subst he
    exact absurd h (by decide)
  have h3 : ¬ c = ',' := by
    intro he
    subst he
    exact absurd h (by decide)
  simp [isSepChar, h2, h3]

theorem digit_isContentChar {c : Char} (h : isDigitC c = true) :
    isContentChar c = true := by
  simp [isContentChar, isWordChar, h]

theorem findBracket_digits_none (d sfx : List Char)
    (hd : ∀ c ∈ d, isDigitC c = true) (hs : '[' ∉ sfx) :
    findBracket ('[' :: (d ++ ']' :: sfx)) = none := by
  have hcontent : (d ++ ']' :: sfx).takeWhile isContentChar = d :=
    takeWhile_all_stop isContentChar d ']' sfx
      (fun c hc => digit_isContentChar (hd c hc)) (by decide)
  have hrest : '[' ∉ (d ++ ']' :: sfx) := by
    intro hmem
    rcases List.mem_append.mp hmem with h1 | h2
    · exact digit_not_lbrack (hd _ h1) rfl
    · rcases List.mem_cons.mp h2 with h3 | h4
      · cases h3
      · exact hs h4
  have hnosep : d.any isSepChar = false := by
    rw [List.any_eq_false]
    intro c hc
    rw [digit_not_sep (hd c hc)]
    simp
  have hdrop : (d ++ ']' :: sfx).drop d.length = ']' :: sfx := by
    have := List.drop_left d (']' :: sfx)
    exact this
  simp [findBracket, hcontent, hdrop, hnosep, findBracket_no_lbrack _ hrest]

/-- Claim C1 (code bug evidence): on the input `"X[1-2-3]"` the bracket
matches the range pattern, the single comma-part `"1-2-3"` contains a hyphen,
and the unpacking `start, end = part.split('-')` meets three pieces, so the
Python code raises `ValueError` instead of returning `["X[1-2-3]"]`; the
embedded function reports the raised exception as `none`. -/
theorem c1_double_hyphen_part_raises :
    expand_interface_range "X[1-2-3]" = none := by decide

/-- Claim C6 (confirmed): the six example equations of the specification for
`expand_interface_range`, preserving comma-part order and ascending order
inside hyphen ranges. -/
theorem c6_expansion_examples :
    expand_interface_range "Ethernet[1-3]" =
        some ["Ethernet1", "Ethernet2", "Ethernet3"] ∧
    expand_interface_range "Ethernet[1,3,5]" =
        some ["Ethernet1", "Ethernet3", "Ethernet5"] ∧
    expand_interface_range "Console0" = some ["Console0"] ∧
    expand_interface_range "X[bad-range]" = some ["X[bad-range]"] ∧
    expand_interface_range "Eth[1-2,5]" = some ["Eth1", "Eth2", "Eth5"] ∧
    expand_interface_range "X[]" = some ["X[]"] := by decide

/-- Claim C5 (counterexample): the claim predicts
`expand("Ethernet[5]") = ["Ethernet5"]`, but the regex `RANGE_PATTERN`
requires at least one hyphen or comma inside the bracket, so `"[5]"` is not
matched and the input is returned unchanged. -/
theorem c5_counterexample_bare_digit_bracket :
    expand_interface_range "Ethernet[5]" ≠ some ["Ethernet5"] := by decide

/-- Claim C5 (amended): for an input `prefix ++ "[" ++ d ++ "]" ++ suffix`
with `d` a non-empty all-digit string and no other `[` in the input, the
bracket does not match `RANGE_PATTERN` (no separator inside), so
`expand_interface_range` returns the one-element list holding the input
unchanged — not the expansion `prefix ++ d ++ suffix` the original claim
states. -/
theorem c5_amended_bare_digit_bracket_unchanged (pfx d sfx : List Char)
    (h1 : d ≠ []) (h2 : ∀ c ∈ d, isDigitC c = true)
    (h3 : '[' ∉ pfx) (h4 : '[' ∉ sfx) :
    expand_interface_range (String.mk (pfx ++ '[' :: (d ++ ']' :: sfx))) =
      some [String.mk (pfx ++ '[' :: (d ++ ']' :: sfx))] := by
  have key : findBracket (pfx ++ '[' :: (d ++ ']' :: sfx)) = none := by
    clear h1
    induction pfx with
    | nil => exact findBracket_digits_none d sfx h2 h4
    | cons a as ih =>
      have ha : ¬ a = '[' := fun hh => h3 (hh ▸ List.mem_cons_self a as)
      have has : '[' ∉ as := fun hh => h3 (List.mem_cons_of_mem a hh)
      simp [findBracket, ha, ih has]
  simp [expand_interface_range, expandCore, key]

/-- Closed witness for the amended claim C5 at
`"Ethernet" ++ "[" ++ "5" ++ "]" ++ ""`. -/
theorem c5_amended_witness :
    ("5".data ≠ [] ∧ (∀ c ∈ "5".data, isDigitC c = true) ∧
      '[' ∉ "Ethernet".data ∧ '[' ∉ ([] : List Char)) ∧
    expand_interface_range
        (String.mk ("Ethernet".data ++ '[' :: ("5".data ++ ']' :: []))) =
      some [String.mk ("Ethernet".data ++ '[' :: ("5".data ++ ']' :: []))] :=
  ⟨⟨by decide, by decide, by decide, by decide⟩,
    c5_amended_bare_digit_bracket_unchanged "Ethernet".data "5".data []
      (by decide) (by decide) (by decide) (by decide)⟩

/-- Claim C8 (confirmed): with no leaf devices (`total_racks = 0`) the
allocator records the warning and returns the empty allocation — no error is
raised and no device of any role receives a rack or a position. -/
theorem c8_zero_leaves_short_circuit (ds : List Device)
    (h : totalRacksOf ds = 0) :
    assign_devices_to_racks ds = .ok ⟨[], [Warning.noLeafDevices]⟩ := by
  simp [assign_devices_to_racks, h]

/-- Closed witness for claim C8: a device list with a spine but no leaves. -/
theorem c8_zero_leaves_witness :
    totalRacksOf [⟨"dc1-spine-01", "spine", 1⟩] = 0 ∧
    assign_devices_to_racks [⟨"dc1-spine-01", "spine", 1⟩] =
      .ok ⟨[], [Warning.noLeafDevices]⟩ :=
  ⟨by decide, c8_zero_leaves_short_circuit [⟨"dc1-spine-01", "spine", 1⟩] (by decide)⟩

/-- Claim C4 (confirmed): the middle band is
`middle_start = total_racks / 2 - middle_device_count / 2` (floor division,
no clamping) and `middle_racks` is the contiguous list
`[middle_start + 1, ..., middle_start + middle_device_count]` of length
`middle_device_count`; with `total_racks = 10` and `middle_device_count = 2`
it is `[5, 6]`, and with `total_racks = 3`, `middle_device_count = 8` the
unclamped start `-3` puts indices `≤ 0` in the band. -/
theorem c4_middle_band (total c : Nat) (i : Nat) (hi : i < c) :
    (middleRacks (middleStart total c) c).length = c ∧
    (middleRacks (middleStart total c) c).getD i 0 =
      middleStart total c + 1 + (i : Int) ∧
    middleStart total c = ((total / 2 : Nat) : Int) - ((c / 2 : Nat) : Int) ∧
    middleStart 10 2 = 4 ∧
    middleRacks (middleStart 10 2) 2 = [5, 6] ∧
    middleStart 3 8 = -3 ∧
    middleRacks (middleStart 3 8) 8 = [-2, -1, 0, 1, 2, 3, 4, 5] := by
  refine ⟨by simp [middleRacks], ?_, rfl, by decide, by decide, by decide, by decide⟩
  rw [middleRacks, List.getD_eq_getElem?_getD, List.getElem?_map, List.getElem?_range hi]
  rfl

/-- Closed witness for claim C4 at `total_racks = 10`,
`middle_device_count = 2`, `i = 1`. -/
theorem c4_middle_band_witness :
    1 < 2 ∧
    ((middleRacks (middleStart 10 2) 2).length = 2 ∧
      (middleRacks (middleStart 10 2) 2).getD 1 0 = middleStart 10 2 + 1 + (1 : Int) ∧
      middleStart 10 2 = ((10 / 2 : Nat) : Int) - ((2 / 2 : Nat) : Int) ∧
      middleStart 10 2 = 4 ∧
      middleRacks (middleStart 10 2) 2 = [5, 6] ∧
      middleStart 3 8 = -3 ∧
      middleRacks (middleStart 3 8) 8 = [-2, -1, 0, 1, 2, 3, 4, 5]) :=
  ⟨by decide, c4_middle_band 10 2 1 (by decide)⟩

/-- Claim C7 (confirmed): a leaf device whose trailing name token does not
parse as an integer makes the allocation raise the parse error (in contrast
with the warned skip of the over-capacity case); the side condition asks the
ordinals that do parse to be at least 1, which every generated name
satisfies. -/
theorem c7_malformed_ordinal_raises (ds : List Device)
    (hbad : ∃ d ∈ leavesOf ds, pyParseInt (lastTokenOf d.name) = none)
    (hgood : ∀ d ∈ leavesOf ds, 1 ≤ (pyParseInt (lastTokenOf d.name)).getD 1) :
    assign_devices_to_racks ds = .error .parseError := by
  have htot : ¬ totalRacksOf ds = 0 := by
    obtain ⟨d, hd, _⟩ := hbad
    intro h0
    rw [totalRacksOf, List.length_eq_zero] at h0
    rw [h0] at hd
    exact absurd hd (List.not_mem_nil d)
  have hkeys : ∀ k : Int, 1 ≤ k → k ≤ ((totalRacksOf ds : Nat) : Int) →
      occGet (initOcc (totalRacksOf ds)) k ≠ none := by
    intro k hk1 hk2
    rw [occGet_initOcc, if_pos ⟨hk1, hk2⟩]
    simp
  have herr := placeLeaves_parse_error (totalRacksOf ds) (leavesOf ds)
    (initOcc (totalRacksOf ds)) [] hkeys hbad hgood
  simp [assign_devices_to_racks, htot, herr, exceptBind_error]

/-- Closed witness for claim C7: one leaf device named `dc1-leaf-xx`. -/
theorem c7_malformed_ordinal_witness :
    (∃ d ∈ leavesOf [⟨"dc1-leaf-xx", "leaf", 1⟩],
      pyParseInt (lastTokenOf d.name) = none) ∧
    (∀ d ∈ leavesOf [⟨"dc1-leaf-xx", "leaf", 1⟩],
      1 ≤ (pyParseInt (lastTokenOf d.name)).getD 1) ∧
    assign_devices_to_racks [⟨"dc1-leaf-xx", "leaf", 1⟩] = .error .parseError :=
  ⟨by decide, by decide,
    c7_malformed_ordinal_raises [⟨"dc1-leaf-xx", "leaf", 1⟩] (by decide) (by decide)⟩

/-- Claim C10 (confirmed): when the computed `middle_racks` band contains an
index outside `1..total_racks` and one of the border-leaf, spine, console or
OOB groups is long enough to consume that index, the allocation raises the
`KeyError` from the occupancy dict (whose keys are exactly
`1..total_racks`): the device is neither warned-skipped nor placed and the
pass aborts.  The side conditions say the leaf loop itself runs to
completion (ordinals parse and are at least 1) and the zero-leaf
short-circuit is not taken. -/
theorem c10_out_of_range_middle_rack_raises (ds : List Device)
    (hparse : ∀ d ∈ leavesOf ds, pyParseInt (lastTokenOf d.name) ≠ none ∧
      1 ≤ (pyParseInt (lastTokenOf d.name)).getD 1)
    (hbadidx : ∃ g ∈ [bordersOf ds, spinesOf ds, consolesOf ds, oobsOf ds],
      ∃ j ∈ List.range g.length, j < (midRacksOf ds).length ∧
        ((midRacksOf ds).getD j 0 < 1 ∨
          (totalRacksOf ds : Int) < (midRacksOf ds).getD j 0))
    (hne : ¬ totalRacksOf ds = 0) :
    assign_devices_to_racks ds = .error .keyError := by
  obtain ⟨g, hgmem, j, hjr, hjm, hout⟩ := hbadidx
  have hj : j < g.length := List.mem_range.mp hjr
  have hkeys : ∀ k : Int, 1 ≤ k → k ≤ ((totalRacksOf ds : Nat) : Int) →
      occGet (initOcc (totalRacksOf ds)) k ≠ none := by
    intro k hk1 hk2
    rw [occGet_initOcc, if_pos ⟨hk1, hk2⟩]
    simp
  obtain ⟨⟨occ1, ws1⟩, hok1⟩ := placeLeaves_complete (totalRacksOf ds)
    (leavesOf ds) (initOcc (totalRacksOf ds)) [] hkeys hparse
  have hdom1 : ∀ k : Int, occGet occ1 k = none ↔
      ¬ (1 ≤ k ∧ k ≤ ((totalRacksOf ds : Nat) : Int)) := by
    intro k
    rw [show occ1 = ((occ1, ws1) : RackMap × List Warning).1 from rfl,
      placeLeaves_none_pres (totalRacksOf ds) (leavesOf ds) _ _ _ hok1 k,
      occGet_initOcc]
    by_cases hk : 1 ≤ k ∧ k ≤ ((totalRacksOf ds : Nat) : Int)
    · rw [if_pos hk]
      simp [hk]
    · rw [if_neg hk]
      simp [hk]
  have hfail : ∀ (occ : RackMap),
      (∀ k : Int, occGet occ k = none ↔
        ¬ (1 ≤ k ∧ k ≤ ((totalRacksOf ds : Nat) : Int))) →
      ∀ ws', placeMiddle g (midRacksOf ds) occ ws' = .error .keyError := by
    intro occ hdom ws'
    refine placeMiddle_bad_idx g (midRacksOf ds) occ ws' ⟨j, hj, hjm, ?_⟩
    rw [hdom]
    rcases hout with h | h
    · intro hc
      omega
    · intro hc
      omega
  simp only [assign_devices_to_racks]
  rw [if_neg hne]
  simp only [hok1, exceptBind_ok]
  have hglist : g = bordersOf ds ∨ g = spinesOf ds ∨ g = consolesOf ds ∨
      g = oobsOf ds := by
    simpa using hgmem
  cases h2 : placeMiddle (bordersOf ds) (midRacksOf ds) occ1 ws1 with
  | error e =>
    simp only [h2, exceptBind_error]
    rw [placeMiddle_error_kind (bordersOf ds) _ _ _ e h2]
  | ok r2 =>
    rcases hglist with hgb | hglist2
    · rw [hgb] at hfail
      rw [hfail occ1 hdom1 ws1] at h2
      cases h2
    have hdom2 : ∀ k : Int, occGet r2.1 k = none ↔
        ¬ (1 ≤ k ∧ k ≤ ((totalRacksOf ds : Nat) : Int)) := by
      intro k
      rw [placeMiddle_none_pres (bordersOf ds) _ _ _ _ h2 k]
      exact hdom1 k
    simp only [h2, exceptBind_ok]
    cases h3 : placeMiddle (spinesOf ds) (midRacksOf ds) r2.1 r2.2 with
    | error e =>
      simp only [h3, exceptBind_error]
      rw [placeMiddle_error_kind (spinesOf ds) _ _ _ e h3]
    | ok r3 =>
      rcases hglist2 with hgs | hglist3
      · rw [hgs] at hfail
        rw [hfail r2.1 hdom2 r2.2] at h3
        cases h3
      have hdom3 : ∀ k : Int, occGet r3.1 k = none ↔
          ¬ (1 ≤ k ∧ k ≤ ((totalRacksOf ds : Nat) : Int)) := by
        intro k
        rw [placeMiddle_none_pres (spinesOf ds) _ _ _ _ h3 k]
        exact hdom2 k
      simp only [h3, exceptBind_ok]
      cases h4 : placeMiddle (consolesOf ds) (midRacksOf ds) r3.1 r3.2 with
      | error e =>
        simp only [h4, exceptBind_error]
        rw [placeMiddle_error_kind (consolesOf ds) _ _ _ e h4]
      | ok r4 =>
        rcases hglist3 with hgc | hgo
        · rw [hgc] at hfail
          rw [hfail r3.1 hdom3 r3.2] at h4
          cases h4
        have hdom4 : ∀ k : Int, occGet r4.1 k = none ↔
            ¬ (1 ≤ k ∧ k ≤ ((totalRacksOf ds : Nat) : Int)) := by
          intro k
          rw [placeMiddle_none_pres (consolesOf ds) _ _ _ _ h4 k]
          exact hdom3 k
        simp only [h4, exceptBind_ok]
        cases h5 : placeMiddle (oobsOf ds) (midRacksOf ds) r4.1 r4.2 with
        | error e =>
          simp only [h5, exceptBind_error]
          rw [placeMiddle_error_kind (oobsOf ds) _ _ _ e h5]
        | ok r5 =>
          exfalso
          rw [hgo] at hfail
          rw [hfail r4.1 hdom4 r4.2] at h5
          cases h5

/-- Closed witness for claim C10: one leaf (so one rack) and two spines
give `middle_racks = [0, 1]`, and the first spine consumes rack index `0`,
which is outside `1..1`. -/
theorem c10_out_of_range_witness :
    (∀ d ∈ leavesOf [⟨"dc1-leaf-01", "leaf", 1⟩, ⟨"dc1-spine-01", "spine", 1⟩,
        ⟨"dc1-spine-02", "spine", 1⟩],
      pyParseInt (lastTokenOf d.name) ≠ none ∧
        1 ≤ (pyParseInt (lastTokenOf d.name)).getD 1) ∧
    (∃ g ∈ [bordersOf [⟨"dc1-leaf-01", "leaf", 1⟩, ⟨"dc1-spine-01", "spine", 1⟩,
        ⟨"dc1-spine-02", "spine", 1⟩],
        spinesOf [⟨"dc1-leaf-01", "leaf", 1⟩, ⟨"dc1-spine-01", "spine", 1⟩,
        ⟨"dc1-spine-02", "spine", 1⟩],
        consolesOf [⟨"dc1-leaf-01", "leaf", 1⟩, ⟨"dc1-spine-01", "spine", 1⟩,
        ⟨"dc1-spine-02", "spine", 1⟩],
        oobsOf [⟨"dc1-leaf-01", "leaf", 1⟩, ⟨"dc1-spine-01", "spine", 1⟩,
        ⟨"dc1-spine-02", "spine", 1⟩]],
      ∃ j ∈ List.range g.length,
        j < (midRacksOf [⟨"dc1-leaf-01", "leaf", 1⟩, ⟨"dc1-spine-01", "spine", 1⟩,
          ⟨"dc1-spine-02", "spine", 1⟩]).length ∧
        ((midRacksOf [⟨"dc1-leaf-01", "leaf", 1⟩, ⟨"dc1-spine-01", "spine", 1⟩,
            ⟨"dc1-spine-02", "spine", 1⟩]).getD j 0 < 1 ∨
          (totalRacksOf [⟨"dc1-leaf-01", "leaf", 1⟩, ⟨"dc1-spine-01", "spine", 1⟩,
            ⟨"dc1-spine-02", "spine", 1⟩] : Int) <
            (midRacksOf [⟨"dc1-leaf-01", "leaf", 1⟩, ⟨"dc1-spine-01", "spine", 1⟩,
              ⟨"dc1-spine-02", "spine", 1⟩]).getD j 0)) ∧
    assign_devices_to_racks [⟨"dc1-leaf-01", "leaf", 1⟩,
      ⟨"dc1-spine-01", "spine", 1⟩, ⟨"dc1-spine-02", "spine", 1⟩] =
      .error .keyError :=
  ⟨by decide, by decide,
    c10_out_of_range_middle_rack_raises
      [⟨"dc1-leaf-01", "leaf", 1⟩, ⟨"dc1-spine-01", "spine", 1⟩,
        ⟨"dc1-spine-02", "spine", 1⟩] (by decide) (by decide) (by decide)⟩

/-- Claim C2 (counterexample): for the single leaf device `dc-leaf-0` the
trailing ordinal is `0 ≤ total_racks = 1`, so the claim predicts assignment
to rack `0` at position 42; the occupancy dict has keys `1..1` only, so the
code raises `KeyError` and no allocation is produced. -/
theorem c2_counterexample_ordinal_zero :
    assign_devices_to_racks [⟨"dc-leaf-0", "leaf", 1⟩] = .error .keyError := rfl

theorem role_leaf_not_middle (ds : List Device) (d : Device)
    (hrole : d.role = "leaf") :
    d ∉ bordersOf ds ∧ d ∉ spinesOf ds ∧ d ∉ consolesOf ds ∧ d ∉ oobsOf ds := by
  refine ⟨?_, ?_, ?_, ?_⟩ <;> intro hmem
  · have h := (List.mem_filter.mp hmem).2
    rw [hrole] at h
    exact absurd h (by decide)
  · have h := (List.mem_filter.mp hmem).2
    rw [hrole] at h
    exact absurd h (by decide)
  · have h := (List.mem_filter.mp hmem).2
    rw [hrole] at h
    exact absurd h (by decide)
  · have h := (List.mem_filter.mp hmem).2
    rw [hrole] at h
    exact absurd h (by decide)

/-- Claim C2 (amended): under completion side conditions (all leaf ordinals
parse and are at least 1; the middle-rack band lies inside `1..total_racks`),
the allocation completes, every leaf with ordinal `1 ≤ n ≤ total_racks` is
placed in rack `n` at position `42 - (H - 1)`, and every leaf with
`n > total_racks` is absent from the allocation with a recorded warning.
The original claim's `n ≤ total_racks` case is amended to `1 ≤ n ≤
total_racks`: ordinal `0` raises a `KeyError` instead (see the
counterexample). -/
theorem c2_amended_leaf_placement (ds : List Device)
    (hparse : ∀ d ∈ leavesOf ds, pyParseInt (lastTokenOf d.name) ≠ none ∧
      1 ≤ (pyParseInt (lastTokenOf d.name)).getD 1)
    (hmid : ∀ r ∈ midRacksOf ds, 1 ≤ r ∧ r ≤ ((totalRacksOf ds : Nat) : Int)) :
    AllocLeafPlacementOK ds := by
  by_cases h0 : totalRacksOf ds = 0
  · refine ⟨⟨[], [Warning.noLeafDevices]⟩, by simp [assign_devices_to_racks, h0], ?_⟩
    have hleaves : leavesOf ds = [] := by
      rw [totalRacksOf] at h0
      exact List.length_eq_zero.mp h0
    intro d hd
    rw [hleaves] at hd
    exact absurd hd (List.not_mem_nil d)
  · have hkeys : ∀ k : Int, 1 ≤ k → k ≤ ((totalRacksOf ds : Nat) : Int) →
        occGet (initOcc (totalRacksOf ds)) k ≠ none := by
      intro k hk1 hk2
      rw [occGet_initOcc, if_pos ⟨hk1, hk2⟩]
      simp
    obtain ⟨⟨occ1, ws1⟩, hok1⟩ := placeLeaves_complete (totalRacksOf ds)
      (leavesOf ds) (initOcc (totalRacksOf ds)) [] hkeys hparse
    have hdom1 : ∀ k : Int, occGet occ1 k = none ↔
        ¬ (1 ≤ k ∧ k ≤ ((totalRacksOf ds : Nat) : Int)) := by
      intro k
      rw [show occ1 = ((occ1, ws1) : RackMap × List Warning).1 from rfl,
        placeLeaves_none_pres (totalRacksOf ds) (leavesOf ds) _ _ _ hok1 k,
        occGet_initOcc]
      by_cases hk : 1 ≤ k ∧ k ≤ ((totalRacksOf ds : Nat) : Int)
      · rw [if_pos hk]
        simp [hk]
      · rw [if_neg hk]
        simp [hk]
    have hmidkeys : ∀ (occ : RackMap),
        (∀ k : Int, occGet occ k = none ↔
          ¬ (1 ≤ k ∧ k ≤ ((totalRacksOf ds : Nat) : Int))) →
        ∀ r ∈ midRacksOf ds, occGet occ r ≠ none := by
      intro occ hdom r hr
      rw [ne_eq, hdom r]
      intro hcon
      exact hcon (hmid r hr)
    obtain ⟨r2, h2⟩ := placeMiddle_complete (bordersOf ds) (midRacksOf ds)
      occ1 ws1 (hmidkeys occ1 hdom1)
    have hdom2 : ∀ k : Int, occGet r2.1 k = none ↔
        ¬ (1 ≤ k ∧ k ≤ ((totalRacksOf ds : Nat) : Int)) := by
      intro k
      rw [placeMiddle_none_pres (bordersOf ds) _ _ _ _ h2 k]
      exact hdom1 k
    obtain ⟨r3, h3⟩ := placeMiddle_complete (spinesOf ds) (midRacksOf ds)
      r2.1 r2.2 (hmidkeys r2.1 hdom2)
    have hdom3 : ∀ k : Int, occGet r3.1 k = none ↔
        ¬ (1 ≤ k ∧ k ≤ ((totalRacksOf ds : Nat) : Int)) := by
      intro k
      rw [placeMiddle_none_pres (spinesOf ds) _ _ _ _ h3 k]
      exact hdom2 k
    obtain ⟨r4, h4⟩ := placeMiddle_complete (consolesOf ds) (midRacksOf ds)
      r3.1 r3.2 (hmidkeys r3.1 hdom3)
    have hdom4 : ∀ k : Int, occGet r4.1 k = none ↔
        ¬ (1 ≤ k ∧ k ≤ ((totalRacksOf ds : Nat) : Int)) := by
      intro k
      rw [placeMiddle_none_pres (consolesOf ds) _ _ _ _ h4 k]
      exact hdom3 k
    obtain ⟨r5, h5⟩ := placeMiddle_complete (oobsOf ds) (midRacksOf ds)
      r4.1 r4.2 (hmidkeys r4.1 hdom4)
    refine ⟨⟨r5.1, r5.2⟩, ?_, ?_⟩
    · simp only [assign_devices_to_racks]
      rw [if_neg h0]
      simp only [hok1, exceptBind_ok, h2, h3, h4, h5]
    · have hkeysEq : r5.1.map Prod.fst =
          (initOcc (totalRacksOf ds)).map Prod.fst := by
        have k1 := keys_placeLeaves (totalRacksOf ds) (leavesOf ds) _ _ _ hok1
        have k2 := keys_placeMiddle (bordersOf ds) _ _ _ _ h2
        have k3 := keys_placeMiddle (spinesOf ds) _ _ _ _ h3
        have k4 := keys_placeMiddle (consolesOf ds) _ _ _ _ h4
        have k5 := keys_placeMiddle (oobsOf ds) _ _ _ _ h5
        rw [k5, k4, k3, k2]
        exact k1
      have hnd : (r5.1.map Prod.fst).Nodup := by
        rw [hkeysEq]
        exact initOcc_keys_nodup _
      intro d hd n hn
      have hrole : d.role = "leaf" := by
        have h := (List.mem_filter.mp hd).2
        simpa using h
      obtain ⟨hnone, hge⟩ := hparse d hd
      have hn1 : 1 ≤ n := by
        rw [hn] at hge
        simpa using hge
      constructor
      · intro hle
        obtain ⟨l1, hl1, he1⟩ := placeLeaves_place (totalRacksOf ds)
          (leavesOf ds) _ _ _ hok1 d hd n hn hle
        obtain ⟨l2, hl2, hm2⟩ := placeMiddle_mem_mono (bordersOf ds) _ _ _ _ h2 n l1 hl1
        obtain ⟨l3, hl3, hm3⟩ := placeMiddle_mem_mono (spinesOf ds) _ _ _ _ h3 n l2 hl2
        obtain ⟨l4, hl4, hm4⟩ := placeMiddle_mem_mono (consolesOf ds) _ _ _ _ h4 n l3 hl3
        obtain ⟨l5, hl5, hm5⟩ := placeMiddle_mem_mono (oobsOf ds) _ _ _ _ h5 n l4 hl4
        exact ⟨l5, hl5, hm5 _ (hm4 _ (hm3 _ (hm2 _ he1)))⟩
      · intro hgt
        obtain ⟨hnb, hns, hnc, hno⟩ := role_leaf_not_middle ds d hrole
        constructor
        · intro p hp e he heq
          have hget5 : occGet r5.1 p.1 = some p.2 := occGet_of_mem r5.1 hnd p hp
          rcases placeMiddle_sources (oobsOf ds) _ _ _ _ h5 p.1 p.2 hget5 e he with
            ⟨l4, hl4, he4⟩ | hdev
          · rcases placeMiddle_sources (consolesOf ds) _ _ _ _ h4 p.1 l4 hl4 e he4 with
              ⟨l3, hl3, he3⟩ | hdev
            · rcases placeMiddle_sources (spinesOf ds) _ _ _ _ h3 p.1 l3 hl3 e he3 with
                ⟨l2, hl2, he2⟩ | hdev
              · rcases placeMiddle_sources (bordersOf ds) _ _ _ _ h2 p.1 l2 hl2 e he2 with
                  ⟨l1, hl1, he1⟩ | hdev
                · rcases placeLeaves_sources (totalRacksOf ds) (leavesOf ds) _ _ _
                    hok1 p.1 l1 hl1 e he1 with ⟨l0, hl0, he0⟩ | ⟨d', hd', n', hn', hn'le, he'⟩
                  · rw [occGet_initOcc] at hl0
                    by_cases hk : 1 ≤ p.1 ∧ p.1 ≤ ((totalRacksOf ds : Nat) : Int)
                    · rw [if_pos hk] at hl0
                      cases hl0
                      exact absurd he0 (List.not_mem_nil e)
                    · rw [if_neg hk] at hl0
                      cases hl0
                  · have hdd : d' = d := by
                      rw [he'] at heq
                      exact heq
                    rw [hdd, hn] at hn'
                    cases hn'
                    omega
                · rw [heq] at hdev
                  exact hnb hdev
              · rw [heq] at hdev
                exact hns hdev
            · rw [heq] at hdev
              exact hnc hdev
          · rw [heq] at hdev
            exact hno hdev
        · have hw1 : Warning.leafSkip d.name ∈ ws1 := by
            have := placeLeaves_skip_warn (totalRacksOf ds) (leavesOf ds) _ _ _
              hok1 d hd n hn hgt
            exact this
          obtain ⟨e2, hw2⟩ := placeMiddle_ws_mono (bordersOf ds) _ _ _ _ h2
          obtain ⟨e3, hw3⟩ := placeMiddle_ws_mono (spinesOf ds) _ _ _ _ h3
          obtain ⟨e4, hw4⟩ := placeMiddle_ws_mono (consolesOf ds) _ _ _ _ h4
          obtain ⟨e5, hw5⟩ := placeMiddle_ws_mono (oobsOf ds) _ _ _ _ h5
          show Warning.leafSkip d.name ∈ r5.2
          rw [hw5, hw4, hw3, hw2]
          exact List.mem_append_left _ (List.mem_append_left _
            (List.mem_append_left _ (List.mem_append_left _ hw1)))

/-- Closed witness for the amended claim C2 on `exDevices`. -/
theorem c2_amended_witness :
    (∀ d ∈ leavesOf exDevices, pyParseInt (lastTokenOf d.name) ≠ none ∧
      1 ≤ (pyParseInt (lastTokenOf d.name)).getD 1) ∧
    (∀ r ∈ midRacksOf exDevices, 1 ≤ r ∧
      r ≤ ((totalRacksOf exDevices : Nat) : Int)) ∧
    AllocLeafPlacementOK exDevices :=
  ⟨by decide, by decide, c2_amended_leaf_placement exDevices (by decide) (by decide)⟩

/-- Claim C3 (confirmed): with pairwise distinct leaf ordinals and the
middle band inside `1..total_racks`, any allocation the code returns has no
two overlapping `(position, height)` intervals within a rack: leaves land
alone at the top of distinct racks, and every further middle-rack placement
goes at `min(existing positions) - height`, strictly below everything
already in the rack. -/
theorem c3_no_overlap (ds : List Device)
    (hdist : List.Pairwise (fun d1 d2 =>
      pyParseInt (lastTokenOf d1.name) ≠ pyParseInt (lastTokenOf d2.name))
      (leavesOf ds))
    (hmid : ∀ r ∈ midRacksOf ds, 1 ≤ r ∧ r ≤ ((totalRacksOf ds : Nat) : Int))
    (a : Alloc) (hok : assign_devices_to_racks ds = .ok a) :
    NoOverlap a := by
  by_cases h0 : totalRacksOf ds = 0
  · rw [show assign_devices_to_racks ds = .ok ⟨[], [Warning.noLeafDevices]⟩ from by
      simp [assign_devices_to_racks, h0]] at hok
    cases hok
    intro p hp
    exact absurd hp (List.not_mem_nil p)
  · simp only [assign_devices_to_racks] at hok
    rw [if_neg h0] at hok
    cases hs1 : placeLeaves (totalRacksOf ds) (leavesOf ds)
        (initOcc (totalRacksOf ds)) [] with
    | error e =>
      rw [hs1, exceptBind_error] at hok
      cases hok
    | ok r1 =>
      rw [hs1, exceptBind_ok] at hok
      cases hs2 : placeMiddle (bordersOf ds) (midRacksOf ds) r1.1 r1.2 with
      | error e =>
        rw [hs2, exceptBind_error] at hok
        cases hok
      | ok r2 =>
        rw [hs2, exceptBind_ok] at hok
        cases hs3 : placeMiddle (spinesOf ds) (midRacksOf ds) r2.1 r2.2 with
        | error e =>
          rw [hs3, exceptBind_error] at hok
          cases hok
        | ok r3 =>
          rw [hs3, exceptBind_ok] at hok
          cases hs4 : placeMiddle (consolesOf ds) (midRacksOf ds) r3.1 r3.2 with
          | error e =>
            rw [hs4, exceptBind_error] at hok
            cases hok
          | ok r4 =>
            rw [hs4, exceptBind_ok] at hok
            cases hs5 : placeMiddle (oobsOf ds) (midRacksOf ds) r4.1 r4.2 with
            | error e =>
              rw [hs5, exceptBind_error] at hok
              cases hok
            | ok r5 =>
              rw [hs5, exceptBind_ok] at hok
              cases hok
              have hlen1 : ∀ k l, occGet r1.1 k = some l → l.length ≤ 1 := by
                refine placeLeaves_len_le_one (totalRacksOf ds) (leavesOf ds)
                  _ _ _ hs1 hdist ?_
                intro k l hl
                rw [occGet_initOcc] at hl
                by_cases hk : 1 ≤ k ∧ k ≤ ((totalRacksOf ds : Nat) : Int)
                · rw [if_pos hk] at hl
                  cases hl
                  exact ⟨by simp, fun hne => absurd rfl hne⟩
                · rw [if_neg hk] at hl
                  cases hl
              have hp1 : ∀ k l, occGet r1.1 k = some l →
                  List.Pairwise EntryDisjoint l :=
                fun k l hl => pairwise_of_len_le_one l (hlen1 k l hl)
              have hp2 := placeMiddle_ok_cases (bordersOf ds) _ _ _ _ hs2 hp1
              have hp3 := placeMiddle_ok_cases (spinesOf ds) _ _ _ _ hs3 hp2
              have hp4 := placeMiddle_ok_cases (consolesOf ds) _ _ _ _ hs4 hp3
              have hp5 := placeMiddle_ok_cases (oobsOf ds) _ _ _ _ hs5 hp4
              have hkeysEq : r5.1.map Prod.fst =
                  (initOcc (totalRacksOf ds)).map Prod.fst := by
                have k1 := keys_placeLeaves (totalRacksOf ds) (leavesOf ds) _ _ _ hs1
                have k2 := keys_placeMiddle (bordersOf ds) _ _ _ _ hs2
                have k3 := keys_placeMiddle (spinesOf ds) _ _ _ _ hs3
                have k4 := keys_placeMiddle (consolesOf ds) _ _ _ _ hs4
                have k5 := keys_placeMiddle (oobsOf ds) _ _ _ _ hs5
                rw [k5, k4, k3, k2]
                exact k1
              have hnd : (r5.1.map Prod.fst).Nodup := by
                rw [hkeysEq]
                exact initOcc_keys_nodup _
              intro p hp
              exact hp5 p.1 p.2 (occGet_of_mem r5.1 hnd p hp)

/-- Closed witness for claim C3 on `exDevices` and its computed
allocation. -/
theorem c3_no_overlap_witness :
    List.Pairwise (fun d1 d2 =>
      pyParseInt (lastTokenOf d1.name) ≠ pyParseInt (lastTokenOf d2.name))
      (leavesOf exDevices) ∧
    (∀ r ∈ midRacksOf exDevices, 1 ≤ r ∧
      r ≤ ((totalRacksOf exDevices : Nat) : Int)) ∧
    assign_devices_to_racks exDevices = .ok exAlloc ∧
    NoOverlap exAlloc :=
  ⟨by decide, by decide, rfl,
    c3_no_overlap exDevices (by decide) (by decide) exAlloc rfl⟩

theorem digitsRevAux_spec (fuel : Nat) : ∀ n, n ≤ fuel →
    valRev (digitsRevAux fuel n) = n ∧ ∀ d ∈ digitsRevAux fuel n, d < 10 := by
  induction fuel with
  | zero =>
    intro n hn
    have h0 : n = 0 := by omega
    subst h0
    exact ⟨rfl, by simp [digitsRevAux]⟩
  | succ f ih =>
    intro n hn
    by_cases h0 : n = 0
    · subst h0
      exact ⟨rfl, by simp [digitsRevAux]⟩
    · simp only [digitsRevAux, if_neg h0]
      have hdiv : n / 10 ≤ f := by
        have hltn : n / 10 < n := Nat.div_lt_self (Nat.pos_of_ne_zero h0) (by omega)
        omega
      obtain ⟨ih1, ih2⟩ := ih (n / 10) hdiv
      refine ⟨?_, ?_⟩
      · rw [valRev, ih1]
        omega
      · intro d hd
        rcases List.mem_cons.mp hd with rfl | hd'
        · exact Nat.mod_lt n (by omega)
        · exact ih2 d hd'

theorem charVal_digChar (d : Nat) (h : d < 10) : charVal (digChar d) = d := by
  interval_cases d <;> rfl

theorem digChar_isDigit (d : Nat) (h : d < 10) : isDigitC (digChar d) = true := by
  interval_cases d <;> decide

theorem digitsVal_append_char (l : List Char) (c : Char) :
    digitsVal (l ++ [c]) = 10 * digitsVal l + charVal c := by
  simp [digitsVal, List.foldl_append, charVal]

theorem digitsVal_rev_digits (ds : List Nat) (h : ∀ d ∈ ds, d < 10) :
    digitsVal ((ds.reverse).map digChar) = valRev ds := by
  induction ds with
  | nil => rfl
  | cons d rest ih =>
    rw [List.reverse_cons, List.map_append, List.map_cons, List.map_nil,
      digitsVal_append_char,
      ih (fun x hx => h x (List.mem_cons_of_mem d hx)),
      charVal_digChar d (h d (List.mem_cons_self d rest)), valRev]
    omega

theorem digitsVal_natStr (n : Nat) : digitsVal (natStr n) = n := by
  by_cases h0 : n = 0
  · subst h0
    rfl
  · rw [natStr, if_neg h0]
    obtain ⟨h1, h2⟩ := digitsRevAux_spec n n (le_refl n)
    rw [digitsVal_rev_digits _ h2, h1]

theorem natStr_digits (n : Nat) : ∀ c ∈ natStr n, isDigitC c = true := by
  by_cases h0 : n = 0
  · subst h0
    intro c hc
    have : c = '0' := by simpa [natStr] using hc
    subst this
    decide
  · rw [natStr, if_neg h0]
    intro c hc
    rw [List.mem_map] at hc
    obtain ⟨d, hd, rfl⟩ := hc
    rw [List.mem_reverse] at hd
    exact digChar_isDigit d ((digitsRevAux_spec n n (le_refl n)).2 d hd)

theorem zfill2_digits (n : Nat) : ∀ c ∈ zfill2 n, isDigitC c = true := by
  intro c hc
  rw [zfill2] at hc
  by_cases hlen : (natStr n).length < 2
  · rw [if_pos hlen] at hc
    rcases List.mem_cons.mp hc with rfl | hc'
    · decide
    · exact natStr_digits n c hc'
  · rw [if_neg hlen] at hc
    exact natStr_digits n c hc

theorem digitsVal_zfill2 (n : Nat) : digitsVal (zfill2 n) = n := by
  rw [zfill2]
  by_cases hlen : (natStr n).length < 2
  · rw [if_pos hlen]
    have h : digitsVal ('0' :: natStr n) = digitsVal (natStr n) := rfl
    rw [h, digitsVal_natStr]
  · rw [if_neg hlen]
    exact digitsVal_natStr n

theorem append_hyphen_inj (r1 : List Char) : ∀ (z1 r2 z2 : List Char),
    '-' ∉ z1 → '-' ∉ z2 →
    r1 ++ '-' :: z1 = r2 ++ '-' :: z2 → r1 = r2 ∧ z1 = z2 := by
  induction r1 with
  | nil =>
    intro z1 r2 z2 h1 h2 he
    cases r2 with
    | nil => simpa using he
    | cons b bs =>
      simp only [List.nil_append, List.cons_append, List.cons.injEq] at he
      exfalso
      apply h1
      rw [he.2]
      exact List.mem_append_right _ (List.mem_cons_self _ _)
  | cons a as ih =>
    intro z1 r2 z2 h1 h2 he
    cases r2 with
    | nil =>
      simp only [List.cons_append, List.nil_append, List.cons.injEq] at he
      exfalso
      apply h2
      rw [← he.2]
      exact List.mem_append_right _ (List.mem_cons_self _ _)
    | cons b bs =>
      simp only [List.cons_append, List.cons.injEq] at he
      obtain ⟨hr, hz⟩ := ih z1 bs z2 h1 h2 he.2
      exact ⟨by rw [he.1, hr], hz⟩

theorem mkDeviceName_inj (topo r1 r2 : String) (c1 c2 : Nat)
    (h : mkDeviceName topo r1 c1 = mkDeviceName topo r2 c2) :
    r1 = r2 ∧ c1 = c2 := by
  have hd : lowerL topo.data ++ '-' :: (r1.data ++ '-' :: zfill2 c1) =
      lowerL topo.data ++ '-' :: (r2.data ++ '-' :: zfill2 c2) := by
    have h2 := congrArg String.data h
    simpa [mkDeviceName] using h2
  have hmid : r1.data ++ '-' :: zfill2 c1 = r2.data ++ '-' :: zfill2 c2 := by
    have h3 := List.append_cancel_left hd
    simpa using h3
  have hnz1 : '-' ∉ zfill2 c1 := by
    intro hm
    exact absurd (zfill2_digits c1 '-' hm) (by decide)
  have hnz2 : '-' ∉ zfill2 c2 := by
    intro hm
    exact absurd (zfill2_digits c2 '-' hm) (by decide)
  obtain ⟨hr, hz⟩ := append_hyphen_inj r1.data (zfill2 c1) r2.data (zfill2 c2)
    hnz1 hnz2 hmid
  refine ⟨?_, ?_⟩
  · cases r1
    cases r2
    exact congrArg String.mk hr
  · have h4 := congrArg digitsVal hz
    rwa [digitsVal_zfill2, digitsVal_zfill2] at h4

theorem lookupCounter_cons (pk : String) (pv : Nat) (rest : List (String × Nat))
    (r : String) :
    lookupCounter ((pk, pv) :: rest) r =
      if pk = r then pv else lookupCounter rest r := rfl

theorem lookupCounter_setCounter (cs : List (String × Nat)) (r0 : String)
    (v : Nat) (r : String) :
    lookupCounter (setCounter cs r0 v) r =
      if r = r0 then v else lookupCounter cs r := by
  induction cs with
  | nil =>
    show lookupCounter [(r0, v)] r = if r = r0 then v else 0
    rw [lookupCounter_cons]
    by_cases h : r = r0
    · rw [if_pos h.symm, if_pos h]
    · rw [if_neg (fun he => h he.symm), if_neg h]
      rfl
  | cons p rest ih =>
    obtain ⟨pk, pv⟩ := p
    show lookupCounter
        (if pk = r0 then (r0, v) :: rest else (pk, pv) :: setCounter rest r0 v) r = _
    by_cases hp : pk = r0
    · rw [if_pos hp, lookupCounter_cons, lookupCounter_cons]
      by_cases h : r = r0
      · rw [if_pos h.symm, if_pos h]
      · rw [if_neg (fun he => h he.symm), if_neg h]
        have h3 : ¬ pk = r := by
          rw [hp]
          exact fun he => h he.symm
        rw [if_neg h3]
    · rw [if_neg hp, lookupCounter_cons, lookupCounter_cons, ih]
      by_cases hpr : pk = r
      · have h : ¬ r = r0 := by
          intro he
          rw [he] at hpr
          exact hp hpr
        rw [if_pos hpr, if_neg h, if_pos hpr]
      · rw [if_neg hpr]
        by_cases h : r = r0
        · rw [if_pos h, if_pos h]
        · rw [if_neg h, if_neg h, if_neg hpr]

theorem createDevicesAux_eq_namesFrom (topo : String) (els : List Element) :
    ∀ cs, createDevicesAux topo els cs =
      namesFrom topo (fun r => lookupCounter cs r) els := by
  induction els with
  | nil => intro cs; rfl
  | cons el rest ih =>
    intro cs
    simp only [createDevicesAux, namesFrom]
    congr 1
    rw [ih]
    congr 1
    funext r
    rw [lookupCounter_setCounter]
    by_cases hr : r = el.role
    · rw [if_pos hr, if_pos hr, hr]
    · rw [if_neg hr, if_neg hr]

theorem foldl_add_init (l : List Element) (a : Nat) :
    l.foldl (fun acc e => acc + e.quantity) a =
      a + l.foldl (fun acc e => acc + e.quantity) 0 := by
  induction l generalizing a with
  | nil => simp
  | cons e rest ih =>
    simp only [List.foldl_cons]
    rw [ih (a + e.quantity), ih (0 + e.quantity)]
    omega

theorem countRoleBefore_succ (el : Element) (rest : List Element) (j : Nat)
    (r : String) :
    countRoleBefore (el :: rest) (j + 1) r =
      (if el.role = r then el.quantity else 0) + countRoleBefore rest j r := by
  by_cases hr : el.role = r
  · rw [if_pos hr]
    have hfil : List.filter (fun e => e.role == r) (el :: List.take j rest) =
        el :: List.filter (fun e => e.role == r) (List.take j rest) := by
      simp [List.filter_cons, hr]
    rw [countRoleBefore, countRoleBefore, List.take_succ_cons, hfil,
      List.foldl_cons, foldl_add_init]
    omega
  · rw [if_neg hr]
    have hfil : List.filter (fun e => e.role == r) (el :: List.take j rest) =
        List.filter (fun e => e.role == r) (List.take j rest) := by
      simp [List.filter_cons, hr]
    rw [countRoleBefore, countRoleBefore, List.take_succ_cons, hfil]
    omega

theorem lookupCounter_nil (r : String) : lookupCounter [] r = 0 := rfl

theorem namesFrom_eq_spec (topo : String) (els : List Element) :
    ∀ (base : String → Nat),
      namesFrom topo base els =
        joinAll ((List.range els.length).map (fun j =>
          (List.range (els.getD j ⟨"", 0, ""⟩).quantity).map (fun i =>
            (mkDeviceName topo (els.getD j ⟨"", 0, ""⟩).role
              (base (els.getD j ⟨"", 0, ""⟩).role +
                countRoleBefore els j (els.getD j ⟨"", 0, ""⟩).role + i + 1),
              (els.getD j ⟨"", 0, ""⟩).template_name)))) := by
  induction els with
  | nil => intro base; rfl
  | cons el rest ih =>
    intro base
    rw [namesFrom, List.length_cons, List.range_succ_eq_map, List.map_cons, joinAll]
    congr 1
    rw [ih, List.map_map]
    apply congrArg joinAll
    apply List.map_congr_left
    intro j hj
    simp only [Function.comp_apply, List.getD_cons_succ]
    apply List.map_congr_left
    intro i hi
    simp only [Prod.mk.injEq]
    refine ⟨congrArg _ ?_, trivial⟩
    rw [countRoleBefore_succ]
    by_cases hr : (rest.getD j ⟨"", 0, ""⟩).role = el.role
    · rw [if_pos hr, if_pos hr.symm]
      omega
    · rw [if_neg hr, if_neg (fun he => hr he.symm)]
      omega

theorem create_devices_eq_spec (topo : String) (els : List Element) :
    create_devices topo els = create_devices_spec topo els := by
  rw [create_devices, createDevicesAux_eq_namesFrom, namesFrom_eq_spec,
    create_devices_spec]
  apply congrArg joinAll
  apply List.map_congr_left
  intro j hj
  apply List.map_congr_left
  intro i hi
  simp only [Prod.mk.injEq, lookupCounter_nil, Nat.zero_add]

theorem namesFrom_mem (topo : String) (els : List Element) :
    ∀ (base : String → Nat) (p : String × String), p ∈ namesFrom topo base els →
      ∃ r c, p.1 = mkDeviceName topo r c ∧ base r < c := by
  induction els with
  | nil =>
    intro base p hp
    exact absurd hp (List.not_mem_nil p)
  | cons el rest ih =>
    intro base p hp
    rcases List.mem_append.mp hp with h1 | h2
    · rw [List.mem_map] at h1
      obtain ⟨i, hi, hpe⟩ := h1
      refine ⟨el.role, base el.role + i + 1, ?_, by omega⟩
      rw [← hpe]
    · obtain ⟨r, c, hc, hlt⟩ := ih _ p h2
      refine ⟨r, c, hc, ?_⟩
      by_cases hr : r = el.role
      · rw [if_pos hr] at hlt
        omega
      · rwa [if_neg hr] at hlt

theorem namesFrom_nodup (topo : String) (els : List Element) :
    ∀ (base : String → Nat), ((namesFrom topo base els).map Prod.fst).Nodup := by
  induction els with
  | nil =>
    intro base
    exact List.nodup_nil
  | cons el rest ih =>
    intro base
    rw [namesFrom, List.map_append, List.nodup_append]
    refine ⟨?_, ih _, ?_⟩
    · rw [List.map_map]
      have hinj : Function.Injective (fun i : Nat =>
          (Prod.fst ∘ fun i : Nat =>
            (mkDeviceName topo el.role (base el.role + i + 1), el.template_name)) i) := by
        intro a b hab
        simp only [Function.comp_apply] at hab
        have := (mkDeviceName_inj topo el.role el.role _ _ hab).2
        omega
      exact List.Nodup.map hinj (List.nodup_range el.quantity)
    · intro name hname hname2
      rw [List.map_map, List.mem_map] at hname
      obtain ⟨i, hi, hpe⟩ := hname
      rw [List.mem_map] at hname2
      obtain ⟨p, hp, hpe2⟩ := hname2
      obtain ⟨r, c, hc, hlt⟩ := namesFrom_mem topo rest _ p hp
      rw [hpe2] at hc
      rw [← hpe] at hc
      simp only [Function.comp_apply] at hc
      obtain ⟨hr, hcc⟩ := mkDeviceName_inj topo el.role r _ _ hc
      rw [← hr] at hlt
      have hlt2 : base el.role + el.quantity < c := by simpa using hlt
      rw [List.mem_range] at hi
      omega

/-- Claim C9 (confirmed): the device naming of `create_devices` equals the
specification's closed form — element `j` contributes, for each unit
`i < quantity`, the name `lowercase(topo) + "-" + role + "-" +
zfill2(counter)` with counter equal to the total quantity of earlier
same-role elements plus `i + 1` (per-role counters starting at 1,
incremented once per unit, continuing across elements of the same role),
each mapped to the element's template name — and all generated names are
pairwise distinct. -/
theorem c9_device_naming (topo : String) (els : List Element) :
    create_devices topo els = create_devices_spec topo els ∧
    ((create_devices topo els).map Prod.fst).Nodup := by
  refine ⟨create_devices_eq_spec topo els, ?_⟩
  rw [create_devices, createDevicesAux_eq_namesFrom]
  exact namesFrom_nodup topo els _
